import Mathlib

/-!
# A shallow embedding of `simpleconfig` (SimplerConfig + nestedcfg store engine)

This file models the hierarchical configuration tree of
`src/simpleconfig/__init__.py` together with the indentation based text
format of `src/simpleconfig/store_engines/nestedcfg.py`, and proves /
refutes the frozen claims about them.

Modelling conventions:
* Python in-place mutation is modelled by explicit state passing: every
  mutating method takes a `Node` and returns `Node × Option Err`, where the
  returned node is the state *after* the call (Python exceptions do not roll
  back earlier mutations, so the state is returned even on error).
* Python `dict` is modelled as an insertion ordered association list
  (`Items`); `set` (used for `__sections__`) is modelled as a duplicate free
  list in insertion order (only membership is ever relevant).
* The cyclic `owner`/`root` back references are modelled by addressing nodes
  with their path from the root (the code keeps `sub_path` in sync with the
  owner chain, see `SimplerConfig.add_section`).
* Scalar values are restricted to Python `int` and `str`.  Floats, and the
  structured values produced by `ast.literal_eval`, are outside the model:
  the places where the source would produce one are marked with the
  `Err.unmodelled` error and are never reached by the theorems below.
* The runtime method replacement performed by `set_immutable`
  (`src/simpleconfig/immutable.py`) is modelled by the `frozen` flag: a
  method marked `@mutator` first checks the flag, which corresponds to the
  instance attribute having been replaced by
  `ImmutableConfiguration.immutable_function_factory`.  Dunder *statements*
  (`del cfg[k]`) dispatch on the type and bypass the instance attribute, so
  their model does not consult the flag; see `delitemStmt`.
-/

namespace SimpleConfig

/-- Python exceptions that the modelled code can raise. -/
inductive Err : Type where
  | keyError (msg : String)
  | valueError (msg : String)
  | typeError (msg : String)
  | indexError (msg : String)
  | assertionError (msg : String)
  | attributeError (msg : String)
  /-- `ImmutableConfiguration(function_name)` raised by the stub that
  `set_immutable` installs in place of the mutator named `fname`. -/
  | immutable (fname : String)
  /-- An `Exception` raised by the parser (ill-formed line etc.). -/
  | parseError (msg : String)
  /-- The source would produce a value outside this model (a float, a
  structured literal, or a registered modifier's hook). -/
  | unmodelled (what : String)
  deriving DecidableEq, Repr

/-- A scalar configuration value: Python `int` or `str`.  (The source also
stores floats and arbitrary objects; those are outside the model.) -/
inductive Val : Type where
  | vint (n : Int)
  | vstr (s : String)
  deriving DecidableEq, Repr

/-- Python `str(value)` for the scalars of the model. -/
def Val.toText : Val → String
  | .vint n => toString n
  | .vstr s => s

/-- A key as passed by the caller: `__key_transform__` accepts strings and
integers (integer keys are the list behaviour, `f"list{key}"`). -/
inductive PyKey : Type where
  | strKey (s : String)
  | intKey (i : Int)
  deriving DecidableEq, Repr

/- A Python value passed to `set_value`: a scalar, a `dict` or a
`list`/`tuple` (the latter two get built-in section support). -/
mutual
inductive PyVal : Type where
  | scalar (v : Val)
  | pydict (d : PyDict)
  | pylist (l : PyList)
  deriving DecidableEq, Repr
inductive PyDict : Type where
  | nil
  | cons (k : String) (v : PyVal) (rest : PyDict)
  deriving DecidableEq, Repr
inductive PyList : Type where
  | nil
  | cons (v : PyVal) (rest : PyList)
  deriving DecidableEq, Repr
end

/-- One entry of `__order__`: `('key', k)` or `('comment', text)`. -/
inductive OEnt : Type where
  | okey (k : String)
  | ocomment (text : String)
  deriving DecidableEq, Repr

/- The configuration tree.  A `Node` carries the per-instance state of a
`SimplerConfig` object: `__data__` (insertion ordered dict), `__order__`,
`__sections__` (a set, modelled as a duplicate free list), the `modifier`
metadata field, and the immutability state (see the header comment). -/
mutual
inductive Node : Type where
  | mk (data : Items) (order : List OEnt) (sections : List String)
      (modifier : Option String) (frozen : Bool)
  deriving DecidableEq, Repr
inductive Items : Type where
  | nil
  | cons (k : String) (it : Item) (rest : Items)
  deriving DecidableEq, Repr
inductive Item : Type where
  | val (v : Val)
  | sec (n : Node)
  deriving DecidableEq, Repr
end

def Node.data : Node → Items
  | .mk d _ _ _ _ => d

def Node.order : Node → List OEnt
  | .mk _ o _ _ _ => o

def Node.sections : Node → List String
  | .mk _ _ s _ _ => s

def Node.modifier : Node → Option String
  | .mk _ _ _ m _ => m

def Node.frozen : Node → Bool
  | .mk _ _ _ _ f => f

@[simp] theorem Node.data_mk (d o s m f) : (Node.mk d o s m f).data = d := rfl

@[simp] theorem Node.order_mk (d o s m f) : (Node.mk d o s m f).order = o := rfl

@[simp] theorem Node.sections_mk (d o s m f) : (Node.mk d o s m f).sections = s := rfl

@[simp] theorem Node.modifier_mk (d o s m f) : (Node.mk d o s m f).modifier = m := rfl

@[simp] theorem Node.frozen_mk (d o s m f) : (Node.mk d o s m f).frozen = f := rfl

/-- A fresh `SimplerConfig(owner=..., modifier=m)`:
empty data/order/sections, not frozen. -/
def emptyNode (m : Option String) : Node := .mk .nil [] [] m false

/-- Keys of `__data__` in insertion order. -/
def Items.keys : Items → List String
  | .nil => []
  | .cons k _ rest => k :: rest.keys

/-- Python `__data__.get(key)` / `__data__[key]`. -/
def Items.lookup : Items → String → Option Item
  | .nil, _ => none
  | .cons k it rest, key => if k = key then some it else rest.lookup key

/-- `key in __data__`. -/
def Items.hasKey (d : Items) (key : String) : Bool := (d.lookup key).isSome

/-- Append a fresh binding at the end (Python dict insertion order). -/
def Items.snoc : Items → String → Item → Items
  | .nil, k, it => .cons k it .nil
  | .cons k0 it0 rest, k, it => .cons k0 it0 (rest.snoc k it)

/-- Replace the item stored under an existing key, keeping its position
(Python `d[k] = v` on a present key). -/
def Items.replace : Items → String → Item → Items
  | .nil, _, _ => .nil
  | .cons k0 it0 rest, k, it =>
      if k0 = k then .cons k0 it rest else .cons k0 it0 (rest.replace k it)

/-- Python `del d[k]` (the key is assumed present by the caller). -/
def Items.erase : Items → String → Items
  | .nil, _ => .nil
  | .cons k0 it0 rest, k =>
      if k0 = k then rest else .cons k0 it0 (rest.erase k)

/-- The keys of the metadata dict `__meta__` as created by
`__init_private_data__` (`owner`, `back`, `root`, `sub_path`, `modifier`,
`key`).  `config_file_path` is only added by `set_file_path`, which is not
part of the modelled operations. -/
def metaKeys : List String := ["owner", "back", "root", "sub_path", "modifier", "key"]

/-- Per-character effect of `str.lower()` followed by the three `replace`
calls of `__key_transform__` (lowering first and then replacing is the same
as doing both per character, since the replaced characters `-`/` `/`.` are
unaffected by lowering; ASCII lowering — the modelled keys are ASCII). -/
def normChar (c : Char) : Char :=
  if c.toLower = '-' ∨ c.toLower = ' ' ∨ c.toLower = '.' then '_' else c.toLower

/-- `str.lower()` followed by the three `replace` calls of
`__key_transform__`. -/
def pyLowerRepl (s : String) : String :=
  String.mk (s.data.map normChar)

/-- `SimplerConfig.__key_transform__` for a string key: lowercase, map
`-`/` `/`.` to `_`, then reject keys whose first character is a digit
(`key[0]` on the empty string raises `IndexError` in Python). -/
def keyTransformStr (s : String) : Except Err String :=
  match (pyLowerRepl s).data with
  | [] => .error (.indexError "string index out of range")
  | c :: _ =>
      if c.isDigit then
        .error (.keyError "Key must be a valid python name (cannot start with a digit)")
      else .ok (pyLowerRepl s)

/-- `SimplerConfig.__key_transform__`: integer keys become `list<i>` first. -/
def keyTransform : PyKey → Except Err String
  | .strKey s => keyTransformStr s
  | .intKey i => keyTransformStr ("list" ++ toString i)

/-- The only modifier shipped in `simpleconfig/modifiers` is
`type_modifier`; `get_modifier_by_name` returns `None` for every other
name.  A node whose modifier resolves to a real plugin routes reads and
writes through the plugin's hooks, which are outside this model. -/
def isRealModifier : Option String → Bool
  | some "type_modifier" => true
  | _ => false

/-- Python `str.strip()` whitespace (ASCII; the modelled strings are ASCII). -/
def isPySpace (c : Char) : Bool :=
  c = ' ' ∨ c = '\t' ∨ c = '\n' ∨ c = '\x0b' ∨ c = '\x0c' ∨ c = '\r'

/-- Digit run with single underscores allowed between digits, as accepted
by Python `int()` (`1_0` is legal, `_1`, `1_`, `1__0` are not). -/
def intDigitsGo (acc : Nat) : List Char → Option Nat
  | [] => some acc
  | c :: rest =>
      if c.isDigit then intDigitsGo (acc * 10 + (c.toNat - '0'.toNat)) rest
      else if c = '_' then
        match rest with
        | d :: rest2 =>
            if d.isDigit then intDigitsGo (acc * 10 + (d.toNat - '0'.toNat)) rest2
            else none
        | [] => none
      else none

def intDigits : List Char → Option Nat
  | [] => none
  | c :: rest =>
      if c.isDigit then intDigitsGo (c.toNat - '0'.toNat) rest else none

/-- Python `int(s)` for a decimal string: optional surrounding whitespace,
optional sign, digits with single underscores between digits.
(Non-ASCII digits are outside the model.) -/
def pyParseInt (s : String) : Option Int :=
  let cs := (s.data.dropWhile isPySpace).reverse.dropWhile isPySpace |>.reverse
  match cs with
  | '+' :: rest => (intDigits rest).map Int.ofNat
  | '-' :: rest => (intDigits rest).map (fun n => -(Int.ofNat n))
  | rest => (intDigits rest).map Int.ofNat

/-! ## Read operations of `SimplerConfig` -/

/-- Result of `get_value(key, sentinel)`: a metadata field, a stored item,
or the sentinel default (`absent`). -/
inductive GetRes : Type where
  | metaVal (field : String)
  | item (it : Item)
  | absent
  deriving DecidableEq, Repr

/-- `SimplerConfig.get_value` (without a default): key transform, metadata
priority, then `__data__` lookup.  A node whose modifier resolves to a real
plugin would route the read through `decode_field`/`decode_implicit_field`,
which is outside the model. -/
def getValueR (n : Node) (key : PyKey) : Except Err GetRes :=
  match keyTransform key with
  | .error e => .error e
  | .ok tk =>
      if tk ∈ metaKeys then .ok (.metaVal tk)
      else if isRealModifier n.modifier then .error (.unmodelled "modifier decode hooks")
      else
        match n.data.lookup tk with
        | some it => .ok (.item it)
        | none => .ok .absent

/-- `SimplerConfig.__contains__`: the *transformed* key against `__data__`. -/
def containsKey (n : Node) (key : PyKey) : Except Err Bool :=
  match keyTransform key with
  | .error e => .error e
  | .ok tk => .ok (n.data.hasKey tk)

/-- `SimplerConfig.has_key`: the *raw* key against `__meta__` then
`__data__` (no key transform). -/
def has_key (n : Node) (key : String) : Bool :=
  if key ∈ metaKeys then true
  else if n.data.hasKey key then true
  else false

/-- `SimplerConfig.has_section`: raw membership in `__sections__`. -/
def has_section (n : Node) (key : String) : Bool := key ∈ n.sections

/-! ## Mutating operations

Every method decorated with `@mutator` first consults the `frozen` flag:
this models the instance attribute having been replaced by the raising stub
(see the header comment). -/

/-- `SimplerConfig.add_section`.  On success the new child (a fresh node
with the requested modifier) is appended to `__data__` and `__order__`
(via `__update_data__`) and its key is added to the `__sections__` set. -/
def add_section (n : Node) (key : PyKey) (sectionType : Option String) :
    Node × Option Err :=
  if n.frozen then (n, some (.immutable "add_section")) else
  match keyTransform key with
  | .error e => (n, some e)
  | .ok tk =>
      if tk ∈ metaKeys then (n, some (.keyError "Cannot use meta-data field"))
      else if tk ∈ n.sections then (n, some (.keyError "section already exists"))
      else
        -- `if key in self` re-applies the (idempotent) key transform
        match keyTransformStr tk with
        | .error e => (n, some e)
        | .ok tk2 =>
            if n.data.hasKey tk2 then (n, some (.keyError "is used to store value"))
            else
              (.mk (n.data.snoc tk (.sec (emptyNode sectionType)))
                (n.order ++ [.okey tk]) (n.sections ++ [tk]) n.modifier n.frozen,
               none)

/- `SimplerConfig.set_value`.  The checks run before any mutation; a `dict`
or `list`/`tuple` value creates a child section (`add_section`) and then
assigns every entry on the child, so an exception raised by an inner entry
leaves the already-created child section (and its earlier entries) behind,
exactly as in the source.  `get_modifier_by_value` triggers only on
`type`/`FunctionType` values, which are not representable as `PyVal`, so the
encoder branch is never taken. -/
mutual

def set_value (n : Node) (key : PyKey) (value : PyVal) : Node × Option Err :=
  if n.frozen then (n, some (.immutable "set_value")) else
  match keyTransform key with
  | .error e => (n, some e)
  | .ok tk =>
      if isRealModifier n.modifier then (n, some (.unmodelled "modifier encode_field")) else
      if tk ∈ metaKeys then (n, some (.keyError "Cannot set meta-data field")) else
      if n.data.hasKey tk then
        (n, some (.keyError "Cannot update existing data field or section"))
      else
        match value with
        | .pydict entries =>
            match add_section n (.strKey tk) none with
            | (n1, some e) => (n1, some e)
            | (n1, none) =>
                let (child, e) := setDictEntries (emptyNode none) entries
                (.mk (n1.data.replace tk (.sec child)) n1.order n1.sections
                  n1.modifier n1.frozen, e)
        | .pylist elems =>
            match add_section n (.strKey tk) none with
            | (n1, some e) => (n1, some e)
            | (n1, none) =>
                let (child, e) := setListEntries (emptyNode none) 0 elems
                (.mk (n1.data.replace tk (.sec child)) n1.order n1.sections
                  n1.modifier n1.frozen, e)
        | .scalar v =>
            (.mk (n.data.snoc tk (.val v)) (n.order ++ [.okey tk]) n.sections
              n.modifier n.frozen, none)

/-- `for k, v in value.items(): dict_section[k] = v` — aborts at the first
exception, keeping the mutations made so far. -/
def setDictEntries (child : Node) : PyDict → Node × Option Err
  | .nil => (child, none)
  | .cons k v rest =>
      match set_value child (.strKey k) v with
      | (c1, some e) => (c1, some e)
      | (c1, none) => setDictEntries c1 rest

/-- `for k, v in enumerate(value): list_section[k] = v`. -/
def setListEntries (child : Node) (i : Int) : PyList → Node × Option Err
  | .nil => (child, none)
  | .cons v rest =>
      match set_value child (.intKey i) v with
      | (c1, some e) => (c1, some e)
      | (c1, none) => setListEntries c1 (i + 1) rest

end

/-- `SimplerConfig.add_comment`: append to `__order__`. -/
def add_comment (n : Node) (c : String) : Node × Option Err :=
  if n.frozen then (n, some (.immutable "add_comment"))
  else (.mk n.data (n.order ++ [.ocomment c]) n.sections n.modifier n.frozen, none)

/-- The body of `SimplerConfig.__delitem__`.  The statement `del cfg[k]`
looks `__delitem__` up on the *type*, so the instance-level stub installed
by `set_immutable` is bypassed and this body runs even on a frozen node
(implicit special-method lookup ignores instance attributes). -/
def delitemStmt (n : Node) (key : PyKey) : Node × Option Err :=
  match keyTransform key with
  | .error e => (n, some e)
  | .ok tk =>
      if n.data.hasKey tk then
        (.mk (n.data.erase tk) n.order
          (if tk ∈ n.sections then n.sections.erase tk else n.sections)
          n.modifier n.frozen, none)
      else (n, some (.keyError tk))

/-- `cfg.__delitem__(k)` invoked as an ordinary attribute access *does* see
the instance-level stub, so it is guarded by the frozen flag. -/
def delitemMethod (n : Node) (key : PyKey) : Node × Option Err :=
  if n.frozen then (n, some (.immutable "__delitem__")) else delitemStmt n key

/-- `SimplerConfig.set_modifier`: clears `__data__` (not `__sections__`,
not `__order__`) and stores the modifier name.  The `ValueError` for a
non-string, non-`None` argument is unrepresentable here because the model
types the argument as `Option String`. -/
def set_modifier (n : Node) (m : Option String) : Node × Option Err :=
  if n.frozen then (n, some (.immutable "set_modifier"))
  else (.mk .nil n.order n.sections m n.frozen, none)

/-- `SimplerConfig.clear`: clears `__data__` then calls
`set_modifier(None)`. -/
def clear (n : Node) : Node × Option Err :=
  if n.frozen then (n, some (.immutable "clear"))
  else
    match set_modifier (.mk .nil n.order n.sections n.modifier n.frozen) none with
    | (n1, e) => (n1, e)

/-- `SimplerConfig.setdefault(key, default)`.  When the key does not
resolve, the source executes `self.set_value(default)` — a call with a
single positional argument, which binds `default` to the `key` parameter
and leaves `value` missing, so Python raises `TypeError` before the body of
`set_value` runs; nothing is mutated and the default is never stored. -/
def setdefault (n : Node) (key : PyKey) (_dflt : PyVal) : Node × Except Err GetRes :=
  if n.frozen then (n, .error (.immutable "setdefault"))
  else
    match getValueR n key with
    | .error e => (n, .error e)
    | .ok .absent =>
        (n, .error (.typeError "set_value() missing 1 required positional argument: value"))
    | .ok g => (n, .ok g)

/-- `SimplerConfig.get_section`: return the existing section key, or create
the section.  On success the returned string is the transformed key, bound
in the returned node's data. -/
def get_section (n : Node) (key : PyKey) : Node × Except Err String :=
  match keyTransform key with
  | .error e => (n, .error e)
  | .ok tk =>
      if tk ∈ n.sections then
        -- `return self.__data__[key]` — raises KeyError if the sets are out
        -- of sync and the key is missing from the data dict
        if n.data.hasKey tk then (n, .ok tk) else (n, .error (.keyError tk))
      else if tk ∈ metaKeys then (n, .error (.keyError "Meta-data field is not a section"))
      else if n.data.hasKey tk then (n, .error (.keyError "is a value field, not a section"))
      else
        match add_section n (.strKey tk) none with
        | (n1, some e) => (n1, .error e)
        | (n1, none) => (n1, .ok tk)

/-! ## Paths: modelling the `owner`/`root` back references -/

/-- Follow a path of (already transformed) keys from a node. -/
def nodeAt : Node → List String → Option Node
  | n, [] => some n
  | n, k :: ps =>
      match n.data.lookup k with
      | some (.sec c) => nodeAt c ps
      | _ => none

/-- Replace the node at a path (identity when the path does not resolve). -/
def setAt : Node → List String → Node → Node
  | _, [], m => m
  | n, k :: ps, m =>
      match n.data.lookup k with
      | some (.sec c) =>
          .mk (n.data.replace k (.sec (setAt c ps m))) n.order n.sections
            n.modifier n.frozen
      | _ => n

/-- Run a mutating method on the node at a path of the tree `r`, mirroring
a Python method call through an alias into the shared tree. -/
def applyAt (r : Node) (p : List String) (f : Node → Node × Option Err) :
    Node × Option Err :=
  match nodeAt r p with
  | none => (r, some (.attributeError "path does not resolve to a section"))
  | some n =>
      match f n with
      | (n2, e) => (setAt r p n2, e)

/-! ## `set_immutable`

`set_immutable` replaces every `@mutator`-tagged bound method on the
instance with a raising stub, then (if recursive) calls `set_immutable` on
every child listed in `__sections__`.  In the model this sets the `frozen`
flag.  Calling it on a node that is already frozen hits the stub installed
for `set_immutable` itself and raises.  The `fuel` argument is only a
structural termination device; `nodeFuel` below always suffices for the
concrete evaluations in this file. -/

mutual
def nodeSize : Node → Nat
  | .mk d _ _ _ _ => 1 + itemsSize d
def itemsSize : Items → Nat
  | .nil => 1
  | .cons _ it rest => 1 + itemSize it + itemsSize rest
def itemSize : Item → Nat
  | .val _ => 1
  | .sec n => 1 + nodeSize n
end

def nodeFuel (n : Node) : Nat := nodeSize n + 1

mutual
def freezeF : Nat → Node → Bool → Node × Option Err
  | 0, n, _ => (n, some (.unmodelled "recursion fuel exhausted"))
  | fuel + 1, n, recursive =>
      if n.frozen then (n, some (.immutable "set_immutable"))
      else
        let n1 : Node := .mk n.data n.order n.sections n.modifier true
        if recursive then freezeSecsF fuel n1 n.sections else (n1, none)
def freezeSecsF : Nat → Node → List String → Node × Option Err
  | 0, cur, _ => (cur, some (.unmodelled "recursion fuel exhausted"))
  | _ + 1, cur, [] => (cur, none)
  | fuel + 1, cur, s :: ss =>
      match cur.data.lookup s with
      | some (.sec c) =>
          -- `self[s].set_immutable(recursive=True, from_root=False)`
          match freezeF fuel c true with
          | (c2, some e) =>
              (.mk (cur.data.replace s (.sec c2)) cur.order cur.sections
                cur.modifier cur.frozen, some e)
          | (c2, none) =>
              freezeSecsF fuel
                (.mk (cur.data.replace s (.sec c2)) cur.order cur.sections
                  cur.modifier cur.frozen) ss
      | _ =>
          -- a `__sections__` key that does not map to a child node: `self[s]`
          -- would fall into the globals/autovivify machinery of `__getitem__`
          (cur, some (.unmodelled "section key does not map to a child node"))
end

/-- `SimplerConfig.set_immutable(recursive, from_root)` on the node at path
`p` of the tree `r`: when `from_root` is true and the node is not the root,
it delegates to `root.set_immutable(recursive=True, from_root=False)`. -/
def set_immutable (r : Node) (p : List String) (recursive from_root : Bool) :
    Node × Option Err :=
  if from_root ∧ p ≠ [] then
    applyAt r [] (fun root => freezeF (nodeFuel root) root true)
  else
    applyAt r p (fun n => freezeF (nodeFuel n) n recursive)

/-! ## `__getitem__` and the globals fallback -/

/-- The owner chain of the node at path `p`, as paths: the node itself,
then its owner, …, then the root. -/
def ownerChain (p : List String) : List (List String) :=
  (List.range (p.length + 1)).map (fun i => p.take (p.length - i))

/-- Result of a successful `__getitem__`. -/
inductive GotVal : Type where
  | metaVal (field : String)
  | item (it : Item)
  deriving DecidableEq, Repr

/-- The `while conf is not None` loop of `__getitem__`: walk the owner
chain; at each node, if it `has_section("globals")` and
`key in conf.globals`, answer `conf.globals[key]` (which, under that guard,
resolves on the globals child via `get_value`); otherwise move to the
owner.  Returns `none` when the chain is exhausted without a hit. -/
def globalsWalk (r : Node) (key : PyKey) : List (List String) → Except Err (Option GotVal)
  | [] => .ok none
  | q :: qs =>
      match nodeAt r q with
      | none => .error (.unmodelled "owner chain path does not resolve")
      | some conf =>
          if has_section conf "globals" then
            -- `conf.globals` = `__getitem__("globals")`, resolved by `get_value`
            match getValueR conf (.strKey "globals") with
            | .error e => .error e
            | .ok (.item (.sec g)) =>
                match containsKey g key with
                | .error e => .error e
                | .ok true =>
                    -- `conf.globals[key]`
                    match getValueR g key with
                    | .error e => .error e
                    | .ok (.metaVal f) => .ok (some (.metaVal f))
                    | .ok (.item it) => .ok (some (.item it))
                    | .ok .absent => .error (.unmodelled "contains/get disagree")
                | .ok false => globalsWalk r key qs
            | .ok (.item (.val _)) =>
                -- `key in <scalar>` raises TypeError in Python
                .error (.typeError "argument is not iterable")
            | .ok (.metaVal _) => .error (.unmodelled "globals is not a meta field")
            | .ok .absent =>
                -- `has_section` true but the key is missing from `__data__`:
                -- `conf.globals` recursively autovivifies, outside the model
                .error (.unmodelled "sections set out of sync with data")
          else globalsWalk r key qs

/-- `SimplerConfig.__getitem__` for a single (non-tuple) key on the node at
path `p`: (1) the value if `get_value` resolves it, (2) otherwise the
nearest `globals` hit on the owner chain, (3) otherwise autovivify a new
empty section via `get_section`.  The returned tree reflects the mutation
performed by case (3). -/
def getitem (r : Node) (p : List String) (key : PyKey) : Except Err (GotVal × Node) :=
  match nodeAt r p with
  | none => .error (.unmodelled "path does not resolve")
  | some n =>
      match getValueR n key with
      | .error e => .error e
      | .ok (.metaVal f) => .ok (.metaVal f, r)
      | .ok (.item it) => .ok (.item it, r)
      | .ok .absent =>
          match globalsWalk r key (ownerChain p) with
          | .error e => .error e
          | .ok (some g) => .ok (g, r)
          | .ok none =>
              match get_section n key with
              | (_, .error e) => .error e
              | (n2, .ok tk) =>
                  match n2.data.lookup tk with
                  | some it => .ok (.item it, setAt r p n2)
                  | none => .error (.unmodelled "get_section did not bind the key")

/-- Specification-style description of the globals fallback: the item bound
under `tk` in the `globals` section of the *nearest* node on the owner
chain (walking from the node towards the root) whose `globals` section
contains `tk`. -/
def globalsHit (r : Node) (tk : String) (q : List String) : Option Item :=
  match nodeAt r q with
  | none => none
  | some conf =>
      if "globals" ∈ conf.sections then
        match conf.data.lookup "globals" with
        | some (.sec g) => g.data.lookup tk
        | _ => none
      else none

def nearestGlobals (r : Node) (p : List String) (tk : String) : Option Item :=
  (ownerChain p).findSome? (globalsHit r tk)

/-! ## Iteration -/

/-- The body of the generator `SimplerConfig.iter_as_list`: asserts that
every data key starts with `"list"`, parses `int(k[4:])` for each, and
yields positions `0..max`, with `None` (modelled as `none`) for gaps.
Element access `self[i]` is modelled by the data lookup of `list<i>`; for
keys in canonical decimal form this is what `__getitem__` resolves (a key
in `all_keys` whose canonical form is missing — e.g. from `list07` — would
instead fall into the globals/autovivify machinery). -/
def iterAsList (n : Node) : Except Err (List (Option Item)) :=
  let ks := n.data.keys
  if ks.isEmpty then .ok []
  else if ks.all (fun k => k.startsWith "list") then
    match ks.mapM (fun k => pyParseInt (k.drop 4)) with
    | none => .error (.valueError "invalid literal for int with base 10")
    | some idxs =>
        match idxs.max? with
        | none => .error (.unmodelled "nonempty list has a maximum")
        | some mx =>
            if mx < 0 then .ok []
            else
              .ok ((List.range (mx.toNat + 1)).map (fun i =>
                if (i : Int) ∈ idxs then n.data.lookup ("list" ++ toString i) else none))
  else .error (.assertionError "all keys start with list")

/-- `SimplerConfig.__iter__`: the source wraps `self.iter_as_list()` in
`try/except` intending to fall back to the raw data keys — but
`iter_as_list` is a *generator function*, so calling it raises nothing; the
body (including the failing `assert`) only runs when the returned generator
is first advanced, outside the `try`.  The fallback is therefore
unreachable and iteration always has `iter_as_list` semantics. -/
def iterConfig (n : Node) : Except Err (List (Option Item)) := iterAsList n

/-! ## The `nestedcfg` text format: value conversion -/

/-- Consume a leading digit run (single underscores allowed between
digits); `none` when there is no valid run, otherwise the remainder. -/
def takeDigits : List Char → Option (List Char)
  | [] => none
  | c :: rest => if c.isDigit then some (takeDigitsGo rest) else none
where
  takeDigitsGo : List Char → List Char
    | [] => []
    | c :: rest =>
        if c.isDigit then takeDigitsGo rest
        else if c = '_' then
          match rest with
          | d :: rest2 => if d.isDigit then takeDigitsGo rest2 else '_' :: d :: rest2
          | [] => ['_']
        else c :: rest

/-- The exponent-or-end tail of a float literal. -/
def floatExpTail : List Char → Bool
  | [] => true
  | c :: rest =>
      if c = 'e' ∨ c = 'E' then
        let rest2 := match rest with
          | s :: r2 => if s = '+' ∨ s = '-' then r2 else rest
          | [] => []
        match takeDigits rest2 with
        | some [] => true
        | _ => false
      else false

/-- Python `float(s)` acceptance (ASCII): optional surrounding whitespace
and sign, then `inf`/`infinity`/`nan` (case-insensitive) or a decimal
mantissa with optional fraction and exponent, with Python's underscore
rule. -/
def floatAccepts (s : String) : Bool :=
  let cs := (s.data.dropWhile isPySpace).reverse.dropWhile isPySpace |>.reverse
  let cs := match cs with
    | c :: rest => if c = '+' ∨ c = '-' then rest else cs
    | [] => []
  let lower := cs.map Char.toLower
  if lower = "inf".data ∨ lower = "infinity".data ∨ lower = "nan".data then true
  else
    match takeDigits cs with
    | some rest1 =>
        (match rest1 with
         | '.' :: rest2 =>
             (match takeDigits rest2 with
              | some rest3 => floatExpTail rest3
              | none => floatExpTail rest2)
         | _ => floatExpTail rest1)
    | none =>
        match cs with
        | '.' :: rest2 =>
            (match takeDigits rest2 with
             | some rest3 => floatExpTail rest3
             | none => false)
        | _ => false

/-- Over-approximation of the strings on which `ast.literal_eval` yields a
value (rather than raising and falling through to `str`): quoted strings,
string/bytes prefixes, containers, `True`/`False`/`None`/`Ellipsis`,
and anything starting with a digit, sign or dot (numbers, complex literals,
unary expressions).  A bare identifier-like word is *not* a literal — for
those `literal_eval` raises and `_convert_from_string` keeps the string.
Being an over-approximation only shrinks the domain of the round-trip
theorem; it never claims stability the source lacks. -/
def literalAccepts (s : String) : Bool :=
  let cs := (s.data.dropWhile isPySpace).reverse.dropWhile isPySpace |>.reverse
  match cs with
  | [] => false
  | c :: rest =>
      if c = '\'' ∨ c = '"' ∨ c = '[' ∨ c = '(' ∨ c = '{' ∨ c = '+' ∨ c = '-'
          ∨ c = '.' ∨ c.isDigit then true
      else if (String.mk cs) = "True" ∨ (String.mk cs) = "False"
          ∨ (String.mk cs) = "None" ∨ (String.mk cs) = "Ellipsis" then true
      else
        -- string prefixes: one or two alphabetic prefix characters directly
        -- followed by a quote (r"", b"", rb"", f"", …)
        match rest with
        | q :: rest2 =>
            if c.isAlpha ∧ (q = '\'' ∨ q = '"') then true
            else
              match rest2 with
              | q2 :: _ => c.isAlpha ∧ q.isAlpha ∧ (q2 = '\'' ∨ q2 = '"')
              | [] => false
        | [] => false

/-- `nestedcfg._convert_from_string`: try `int`, then `float`, then
`ast.literal_eval`, then `str`.  Floats and structured literals are outside
the model and are reported as `Err.unmodelled`. -/
def convertFromString (s : String) : Except Err Val :=
  match pyParseInt s with
  | some n => .ok (.vint n)
  | none =>
      if floatAccepts s then .error (.unmodelled "float value")
      else if literalAccepts s then .error (.unmodelled "structured literal value")
      else .ok (.vstr s)

/-! ## The `nestedcfg` line grammar (`RE_ALL_LINES`)

A line (without its trailing newline) is matched first against the data
alternative `(?P<indent>[ ]*)(?P<key>NAME)\s*(?::\s*(?P<encoder>NAME)?\s*|=\s*(?P<value>\S.*))`
— anchored only at the start — and otherwise against the comment
alternative `([ \t\r\f\v]*)(?:#(.*)?)?` anchored at both ends. -/

def isNameStart (c : Char) : Bool := c.isAlpha ∨ c = '_'

def isNameChar (c : Char) : Bool := c.isAlphanum ∨ c = '_'

/-- `[ \t\r\f\v]` — the whitespace class of `REGEXP_COMMENT` (no newline). -/
def isCommentWs (c : Char) : Bool :=
  c = ' ' ∨ c = '\t' ∨ c = '\r' ∨ c = '\x0b' ∨ c = '\x0c'

/-- Does a line satisfy `RE_COMMENT` (optional whitespace, then optionally
`#` and arbitrary text)? -/
def commentShape (cs : List Char) : Bool :=
  match cs.dropWhile isCommentWs with
  | [] => true
  | c :: _ => c = '#'

inductive LinePayload : Type where
  | sectionOpen (encoder : Option String)
  | valueAssign (raw : String)
  deriving DecidableEq, Repr

inductive LineKind : Type where
  | commentLine (text : String)
  | dataLine (indent : Nat) (key : String) (payload : LinePayload)
  deriving DecidableEq, Repr

/-- The data alternative of `RE_ALL_LINES` (a prefix match). -/
def dataShape (line : String) : Option LineKind :=
  let cs := line.data
  let indent := (cs.takeWhile (fun c => c = ' ')).length
  let rest0 := cs.dropWhile (fun c => c = ' ')
  match rest0 with
  | c :: _ =>
      if isNameStart c then
        let key := String.mk (rest0.takeWhile isNameChar)
        let rest1 := rest0.dropWhile isNameChar
        match rest1.dropWhile isPySpace with
        | ':' :: rest3 =>
            let rest4 := rest3.dropWhile isPySpace
            let enc := rest4.takeWhile isNameChar
            match enc with
            | e0 :: _ =>
                if isNameStart e0 then
                  some (.dataLine indent key (.sectionOpen (some (String.mk enc))))
                else some (.dataLine indent key (.sectionOpen none))
            | [] => some (.dataLine indent key (.sectionOpen none))
        | '=' :: rest3 =>
            match rest3.dropWhile isPySpace with
            | [] => none
            | v => some (.dataLine indent key (.valueAssign (String.mk v)))
        | _ => none
      else none
  | [] => none

/-- `Parser.parse_line` classification: data alternative first, comment
alternative second, otherwise an ill-formed-line error.  The comment text
recorded by `__update_comment` is the whole matched line, `#` included. -/
def classifyLine (line : String) : Except Err LineKind :=
  match dataShape line with
  | some lk => .ok lk
  | none =>
      if commentShape line.data then .ok (.commentLine line)
      else .error (.parseError "Ill formed line: could not be matched by regular expression")

/-! ## The writer -/

def indentStr (lvl : Nat) : String := String.mk (List.replicate (lvl * 4) ' ')

/-- `Writer.write_comment`: split on newlines and prefix `"# "` to every
piece that does not already have comment shape.  Comments are written with
no indentation. -/
def writeComment (c : String) : List String :=
  (c.splitOn "\n").map (fun line => if commentShape line.data then line else "# " ++ line)

/-- Size bound used for the termination of `dumpGo`. -/
theorem lookup_sec_size {d : Items} {k : String} {child : Node}
    (h : d.lookup k = some (.sec child)) : itemsSize child.data < itemsSize d :=
  match d, h with
  | .cons k0 it rest, h => by
      by_cases hk : k0 = k
      · simp [Items.lookup, hk] at h
        subst h
        cases child with
        | mk cd co cs cm cf => simp [itemsSize, itemSize, nodeSize, Node.data]; omega
      · simp [Items.lookup, hk] at h
        have := lookup_sec_size h
        simp [itemsSize]; omega

/-- `SimplerConfig.__dump__` together with the writer: walk `__order__`;
skip `key` entries whose key has been deleted from `__data__`; emit
`name:`/`name: modifier` plus the recursively dumped child for a section;
emit `name = str(value)` for a scalar; emit the comment lines for a comment
entry.  A `__sections__`/`__data__` mismatch makes the source call
`get_modifier_name` on a non-node (AttributeError) or write the `repr` of a
node as a value (not representable in the format); both are errors here. -/
def dumpGo (d : Items) (secs : List String) (order : List OEnt) (lvl : Nat) :
    Except Err (List String) :=
  match order with
  | [] => .ok []
  | .ocomment c :: os =>
      match dumpGo d secs os lvl with
      | .error e => .error e
      | .ok rest => .ok (writeComment c ++ rest)
  | .okey k :: os =>
      match h : d.lookup k with
      | none => dumpGo d secs os lvl
      | some it =>
          if k ∈ secs then
            match it, h with
            | .sec child, h =>
                let header := indentStr lvl ++
                  (match child.modifier with
                   | some enc => k ++ ": " ++ enc
                   | none => k ++ ":")
                match dumpGo child.data child.sections child.order (lvl + 1) with
                | .error e => .error e
                | .ok body =>
                    match dumpGo d secs os lvl with
                    | .error e => .error e
                    | .ok rest => .ok (header :: (body ++ rest))
            | .val _, _ => .error (.attributeError "int object has no attribute get_modifier_name")
          else
            match it with
            | .val v =>
                match dumpGo d secs os lvl with
                | .error e => .error e
                | .ok rest => .ok ((indentStr lvl ++ k ++ " = " ++ v.toText) :: rest)
            | .sec _ => .error (.unmodelled "write_key_value would write the repr of a node")
termination_by (itemsSize d, order.length)
decreasing_by
  · exact Prod.Lex.right _ (by simp only [List.length_cons]; omega)
  · exact Prod.Lex.right _ (by simp only [List.length_cons]; omega)
  · exact Prod.Lex.left _ _ (lookup_sec_size h)
  · exact Prod.Lex.right _ (by simp only [List.length_cons]; omega)
  · exact Prod.Lex.right _ (by simp only [List.length_cons]; omega)

/-- `SimplerConfig.__dump__` of a whole node at writer indent `lvl`. -/
def dumpNode (n : Node) (lvl : Nat) : Except Err (List String) :=
  dumpGo n.data n.sections n.order lvl

/-! ## The parser -/

/-- `Parser` state: the tree being populated (`loads` parses *into* an
existing root), the indentation stack `conf_stack` (top = head here; the
source appends and pops at the end of its list), and the pending
`new_conf` slot, both holding nodes as root paths. -/
structure PState : Type where
  root : Node
  stack : List (Nat × List String)
  pending : Option (List String)
  deriving DecidableEq, Repr

/-- The `while indent != self.conf_stack[-1][0]` pop loop: pop until the
top indent matches, a fatal `ValueError` if the stack empties first. -/
def popTo (indent : Nat) : List (Nat × List String) →
    Except Err (List (Nat × List String))
  | [] => .error (.valueError "Unexpected indentation")
  | (j, q) :: rest => if j = indent then .ok ((j, q) :: rest) else popTo indent rest

/-- `Parser.__update_indent`. -/
def updateIndent (indent : Nat) (st : PState) : Except Err PState :=
  match st.stack with
  | [] => .error (.indexError "list index out of range")
  | (j, q) :: rest =>
      if j < indent then
        match st.pending with
        | some c =>
            match popTo indent ((indent, c) :: (j, q) :: rest) with
            | .error e => .error e
            | .ok stk => .ok ⟨st.root, stk, none⟩
        | none => .error (.valueError "Unexpected indentation")
      else
        match popTo indent ((j, q) :: rest) with
        | .error e => .error e
        | .ok stk => .ok ⟨st.root, stk, none⟩

/-- `Parser.__get_cur_conf`: the pending section if set, else the top of
the stack. -/
def getCurConf (st : PState) : Except Err (List String) :=
  match st.pending with
  | some c => .ok c
  | none =>
      match st.stack with
      | (_, q) :: _ => .ok q
      | [] => .error (.indexError "list index out of range")

/-- `Parser.parse_line`. -/
def parseLine (st : PState) (line : String) : Except Err PState :=
  match classifyLine line with
  | .error e => .error e
  | .ok (.commentLine text) =>
      match getCurConf st with
      | .error e => .error e
      | .ok p =>
          match applyAt st.root p (fun n => add_comment n text) with
          | (_, some e) => .error e
          | (r2, none) => .ok ⟨r2, st.stack, st.pending⟩
  | .ok (.dataLine indent key payload) =>
      match updateIndent indent st with
      | .error e => .error e
      | .ok st1 =>
          match st1.stack with
          | [] => .error (.indexError "list index out of range")
          | (_, p) :: _ =>
              match payload with
              | .sectionOpen enc =>
                  match applyAt st1.root p (fun n => add_section n (.strKey key) enc) with
                  | (_, some e) => .error e
                  | (r2, none) =>
                      match keyTransformStr key with
                      | .error e => .error e
                      | .ok tk => .ok ⟨r2, st1.stack, some (p ++ [tk])⟩
              | .valueAssign raw =>
                  match convertFromString raw with
                  | .error e => .error e
                  | .ok v =>
                      match applyAt st1.root p
                          (fun n => set_value n (.strKey key) (.scalar v)) with
                      | (_, some e) => .error e
                      | (r2, none) => .ok ⟨r2, st1.stack, st1.pending⟩

/-- `Parser.parse`: process the lines in order; the first exception aborts
the parse (the source re-raises it tagged with the 1-based line number,
which the model leaves off the message). -/
def parseLines : List String → PState → Except Err PState
  | [], st => .ok st
  | l :: ls, st =>
      match parseLine st l with
      | .error e => .error e
      | .ok st1 => parseLines ls st1

/-- `SimplerConfig.loads` into a fresh root: initial parser stack
`[(0, conf)]`, no pending section. -/
def initState (root : Node) : PState := ⟨root, [(0, [])], none⟩

/-- Serialize-then-parse: dump a tree and parse the text into a fresh empty
root (`SimplerConfig.from_string(cfg.dumps())`). -/
def roundTrip (t : Node) : Except Err Node :=
  match dumpNode t 0 with
  | .error e => .error e
  | .ok lines =>
      match parseLines lines (initState (emptyNode none)) with
      | .error e => .error e
      | .ok st => .ok st.root

/-! ## Structural invariants -/

/- A predicate holding at every node of a tree. -/
mutual
def nodeAll (P : Node → Bool) : Node → Bool
  | .mk d o s m f => P (.mk d o s m f) && itemsAll P d
def itemsAll (P : Node → Bool) : Items → Bool
  | .nil => true
  | .cons _ it rest => itemAll P it && itemsAll P rest
def itemAll (P : Node → Bool) : Item → Bool
  | .val _ => true
  | .sec n => nodeAll P n
end

/-- The invariant of claim C6 at one node: every member of `__sections__`
maps in `__data__` to a child node (hence `sections ⊆ data` keys).  In the
path model a child found in a node's `data` is by construction owned by
that node, which is the `metadata.owner` part of the claim. -/
def secLocal (n : Node) : Bool :=
  n.sections.all (fun k =>
    match n.data.lookup k with
    | some (.sec _) => true
    | _ => false)

/-- The C6 invariant at every node of the tree. -/
def secOk : Node → Bool := nodeAll secLocal

/-- No node routes reads/writes through a real modifier plugin. -/
def noRealMod : Node → Bool := nodeAll (fun n => !(isRealModifier n.modifier))

/-- A key that the writer and parser transport verbatim: a Python
identifier made of name characters that is a fixed point of
`__key_transform__` (no uppercase letters). -/
def isIdentKey (s : String) : Bool :=
  match s.data with
  | [] => false
  | c :: _ => isNameStart c && s.data.all isNameChar && pyLowerRepl s = s

/-- A name accepted by the `encoder` group of the line grammar. -/
def identName (s : String) : Bool :=
  match s.data with
  | [] => false
  | c :: _ => isNameStart c && s.data.all isNameChar

/-- A scalar value that survives the writer/parser: its `str()` form is
re-inferred as the same value by `_convert_from_string`, and it fits on one
data line (non-empty, does not start with whitespace, no embedded
newline). -/
def stableVal (v : Val) : Bool :=
  let s := v.toText
  (match convertFromString s with
   | .ok v2 => decide (v2 = v)
   | .error _ => false) &&
    !s.data.isEmpty && !(isPySpace (s.data.headD 'x')) && !(s.data.contains '\n')

/-- The `key` entries of `__order__` whose key is still live in `__data__`,
in order (the writer emits exactly these). -/
def liveKeys (d : Items) : List OEnt → List String
  | [] => []
  | .okey k :: os => if d.hasKey k then k :: liveKeys d os else liveKeys d os
  | .ocomment _ :: os => liveKeys d os

/-- Is an order entry a comment? -/
def isCommentEnt : OEnt → Bool
  | .okey _ => false
  | .ocomment _ => true

/-- The keys of the section-valued entries of `__data__`, in data order. -/
def secKeys : Items → List String
  | .nil => []
  | .cons k (.sec _) rest => k :: secKeys rest
  | .cons _ (.val _) rest => secKeys rest

/-- Local part of the round-trip invariant (see `wfRT`). -/
def wfLocal (n : Node) : Bool :=
  n.data.keys.all (fun k => isIdentKey k && decide (k ∉ metaKeys)) &&
  decide (n.data.keys.Nodup) &&
  decide (liveKeys n.data n.order = n.data.keys) &&
  n.order.all (fun e => !isCommentEnt e) &&
  secLocal n &&
  n.data.keys.all (fun k =>
    match n.data.lookup k with
    | some (.sec _) => decide (k ∈ n.sections)
    | _ => true) &&
  (match n.modifier with
   | none => true
   | some e => identName e && !isRealModifier (some e)) &&
  !n.frozen &&
  n.data.keys.all (fun k =>
    match n.data.lookup k with
    | some (.val v) => stableVal v
    | _ => true)

/-- The round-trip invariant: at every node, keys are identifier shaped and
not metadata names, the live part of `__order__` lists exactly the data
keys in data order (keys are never re-bound after a delete), there are no
comments, `__sections__` matches the section-valued data entries, the
modifier is absent or an inert name, the node is not frozen, and every
scalar is stable under re-inference. -/
def wfRT : Node → Bool := nodeAll wfLocal

/- The canonical form produced by parsing a dump: same data (children
canonicalized), `__order__` regenerated as the live keys in data order,
`__sections__` regenerated as the section keys in data order. -/
mutual
def canonNode : Node → Node
  | .mk d _ _ m f => .mk (canonItems d) ((canonItems d).keys.map .okey) (secKeys (canonItems d)) m f
def canonItems : Items → Items
  | .nil => .nil
  | .cons k it rest => .cons k (canonItem it) (canonItems rest)
def canonItem : Item → Item
  | .val v => .val v
  | .sec n => .sec (canonNode n)
end

/- Key-set / value / section-structure equivalence at every level — the
relation the round-trip claim asserts between a tree and its reparse:
identical data key sequences, identical stored scalars, equal section sets,
recursively. -/
mutual
def shapeEqNode : Node → Node → Bool
  | .mk d1 _ s1 _ _, .mk d2 _ s2 _ _ =>
      shapeEqItems d1 d2 && s1.all (· ∈ s2) && s2.all (· ∈ s1)
def shapeEqItems : Items → Items → Bool
  | .nil, .nil => true
  | .cons k1 it1 r1, .cons k2 it2 r2 =>
      decide (k1 = k2) && shapeEqItem it1 it2 && shapeEqItems r1 r2
  | _, _ => false
def shapeEqItem : Item → Item → Bool
  | .val v1, .val v2 => decide (v1 = v2)
  | .sec n1, .sec n2 => shapeEqNode n1 n2
  | _, _ => false
end

/-! ## C1 development: definitions -/

/-- The live entries of `__order__` as an association list: exactly the
bindings the writer emits, in emission order. -/
def liveItems (d : Items) : List OEnt → Items
  | [] => .nil
  | .okey k :: os =>
      match d.lookup k with
      | some it => .cons k it (liveItems d os)
      | none => liveItems d os
  | .ocomment _ :: os => liveItems d os

/-- Concatenation of association lists. -/
def catItems : Items → Items → Items
  | .nil, e => e
  | .cons k it r, e => .cons k it (catItems r e)

/-- A node extended by a block of parsed entries: data appended, `__order__`
extended by the new keys, `__sections__` by the new section keys. -/
def appendNode (tgt : Node) (add : Items) : Node :=
  .mk (catItems tgt.data add) (tgt.order ++ add.keys.map .okey)
    (tgt.sections ++ secKeys add) tgt.modifier tgt.frozen

/-- The header piece the writer emits for a section key. -/
def headerStr (k : String) : Option String → String
  | some enc => k ++ ": " ++ enc
  | none => k ++ ":"

/-- The parser-state shape from which the block of the section at path `p`
(opened at indent `i`, with stack continuation `base`) is consumed: either
the `(i, p)` frame is on the stack under frames of strictly deeper indent,
or the section was just opened, is still pending, and the shallower parent
frame is on top. -/
def EntrySt (i : Nat) (p : List String) (base : List (Nat × List String))
    (st : PState) : Prop :=
  (∃ ext, st.stack = ext ++ (i, p) :: base ∧ ∀ e ∈ ext, i < e.1) ∨
  (st.pending = some p ∧ st.stack = base ∧
    ∃ j q base2, base = (j, q) :: base2 ∧ j < i)

/-- A concrete well-formed tree exercising the amended C1 theorem: a scalar
and a section holding a string value. -/
def c1Tree : Node :=
  .mk (.cons "alpha" (.val (.vint 1))
        (.cons "sect" (.sec (.mk (.cons "beta" (.val (.vstr "x")) .nil)
          [.okey "beta"] [] none false)) .nil))
    [.okey "alpha", .okey "sect"] ["sect"] none false

/-! ## Association list utilities -/

/-- Structural induction on the spine of an `Items` list (the `Items.rec`
recursor has multiple motives, so tactic `induction` cannot use it). -/
theorem itemsInd {P : Items → Prop} (hnil : P .nil)
    (hcons : ∀ k it rest, P rest → P (.cons k it rest)) : ∀ d, P d
  | .nil => hnil
  | .cons k it rest => hcons k it rest (itemsInd hnil hcons rest)

theorem lookup_snoc (d : Items) (k : String) (it : Item) (q : String) :
    (d.snoc k it).lookup q =
      (match d.lookup q with
       | some x => some x
       | none => if k = q then some it else none) := by
  induction d using itemsInd with
  | hnil => simp [Items.snoc, Items.lookup]
  | hcons k0 it0 rest ih =>
      by_cases h : k0 = q <;> simp [Items.snoc, Items.lookup, h, ih]

theorem lookup_replace (d : Items) (k : String) (it : Item) (q : String) :
    (d.replace k it).lookup q =
      if k = q then (match d.lookup k with
                     | some _ => some it
                     | none => none)
      else d.lookup q := by
  induction d using itemsInd with
  | hnil => simp [Items.replace, Items.lookup]
  | hcons k0 it0 rest ih =>
      by_cases h0 : k0 = k
      · subst h0
        by_cases hq : k0 = q <;> simp [Items.replace, Items.lookup, hq]
      · by_cases hq : k0 = q
        · subst hq
          have hk : k ≠ k0 := fun hh => h0 hh.symm
          simp [Items.replace, Items.lookup, h0, hk]
        · simp [Items.replace, Items.lookup, h0, hq, ih]

theorem keys_snoc (d : Items) (k : String) (it : Item) :
    (d.snoc k it).keys = d.keys ++ [k] := by
  induction d using itemsInd with
  | hnil => simp [Items.snoc, Items.keys]
  | hcons k0 it0 rest ih => simp [Items.snoc, Items.keys, ih]

theorem keys_replace (d : Items) (k : String) (it : Item) :
    (d.replace k it).keys = d.keys := by
  induction d using itemsInd with
  | hnil => simp [Items.replace, Items.keys]
  | hcons k0 it0 rest ih =>
      by_cases h : k0 = k <;> simp [Items.replace, Items.keys, h, ih]

theorem lookup_erase_ne (d : Items) (k q : String) (h : k ≠ q) :
    (d.erase k).lookup q = d.lookup q := by
  induction d using itemsInd with
  | hnil => simp [Items.erase, Items.lookup]
  | hcons k0 it0 rest ih =>
      by_cases h0 : k0 = k
      · subst h0
        simp [Items.erase, Items.lookup, h]
      · by_cases hq : k0 = q
        · subst hq
          simp [Items.erase, Items.lookup, h0]
        · simp [Items.erase, Items.lookup, h0, hq, ih]

theorem hasKey_mem_keys (d : Items) (k : String) :
    d.hasKey k = true ↔ k ∈ d.keys := by
  induction d using itemsInd with
  | hnil => simp [Items.hasKey, Items.lookup, Items.keys]
  | hcons k0 it0 rest ih =>
      by_cases h : k0 = k
      · subst h; simp [Items.hasKey, Items.lookup, Items.keys]
      · have h2 : k ≠ k0 := fun hh => h hh.symm
        simp only [Items.hasKey] at ih
        simp [Items.hasKey, Items.lookup, Items.keys, h, h2, ih]

/-! ## Idempotence of the key transform -/

theorem char_toNat_ofNat_small {m : Nat} (h : m < 55296) : (Char.ofNat m).toNat = m := by
  have hv : m.isValidChar := Or.inl (by omega)
  simp [Char.ofNat, hv, Char.ofNatAux, Char.toNat, UInt32.toNat, BitVec.toNat_ofNatLt]

theorem toLower_idem (c : Char) : c.toLower.toLower = c.toLower := by
  unfold Char.toLower
  by_cases h : c.toNat ≥ 65 ∧ c.toNat ≤ 90
  · rw [if_pos h]
    have h2 : (Char.ofNat (c.toNat + 32)).toNat = c.toNat + 32 :=
      char_toNat_ofNat_small (by omega)
    rw [if_neg (by rw [h2]; omega)]
  · rw [if_neg h, if_neg h]

theorem normChar_idem (c : Char) : normChar (normChar c) = normChar c := by
  unfold normChar
  by_cases h : c.toLower = '-' ∨ c.toLower = ' ' ∨ c.toLower = '.'
  · simp only [if_pos h]
    decide
  · simp only [if_neg h, toLower_idem, if_neg h]

theorem pyLowerRepl_idem (s : String) : pyLowerRepl (pyLowerRepl s) = pyLowerRepl s := by
  unfold pyLowerRepl
  simp only [List.map_map]
  congr 1
  apply List.map_congr_left
  intro c _
  exact normChar_idem c

theorem keyTransformStr_idem {s t : String} (h : keyTransformStr s = .ok t) :
    keyTransformStr t = .ok t := by
  unfold keyTransformStr at *
  cases hd : (pyLowerRepl s).data with
  | nil => rw [hd] at h; simp at h
  | cons c rest =>
      rw [hd] at h
      by_cases hdig : c.isDigit
      · simp [hdig] at h
      · simp only [hdig, Bool.false_eq_true, if_false, Except.ok.injEq] at h
        subst h
        rw [pyLowerRepl_idem, hd]
        simp [hdig]

theorem keyTransform_idem {k : PyKey} {t : String} (h : keyTransform k = .ok t) :
    keyTransformStr t = .ok t := by
  cases k with
  | strKey s => exact keyTransformStr_idem h
  | intKey i => exact keyTransformStr_idem (by simpa [keyTransform] using h)

/-! ## Characterizations of the mutators -/

/-- Successful `add_section` appends the fresh child and key; it implies
all the collision checks passed. -/
theorem add_section_success {n : Node} {y : PyKey} {st : Option String}
    {n1 : Node} {t : String}
    (ht : keyTransform y = .ok t)
    (h : add_section n y st = (n1, none)) :
    n1 = .mk (n.data.snoc t (.sec (emptyNode st))) (n.order ++ [.okey t])
        (n.sections ++ [t]) n.modifier false ∧
      n.frozen = false ∧ t ∉ metaKeys ∧ t ∉ n.sections ∧ n.data.hasKey t = false := by
  unfold add_section at h
  by_cases hf : n.frozen
  · simp [hf] at h
  · simp only [hf, Bool.false_eq_true, if_false, ht] at h
    by_cases hmeta : t ∈ metaKeys
    · simp [hmeta] at h
    · by_cases hsec : t ∈ n.sections
      · simp [hmeta, hsec] at h
      · rw [keyTransform_idem ht] at h
        by_cases hk : n.data.hasKey t
        · simp [hmeta, hsec, hk] at h
        · simp only [hmeta, hsec, hk, Bool.false_eq_true, if_false,
            decide_False, Bool.false_eq_true, if_false, Prod.mk.injEq] at h
          refine ⟨h.1.symm, by simp [hf], hmeta, hsec, by simp [hk]⟩

/-- Successful `set_value` leaves the transformed key bound and preserves
the node's frozen flag and modifier; it implies the pre-checks passed. -/
theorem set_value_success {n : Node} {k : PyKey} {v : PyVal} {n2 : Node} {t : String}
    (ht : keyTransform k = .ok t)
    (h : set_value n k v = (n2, none)) :
    n2.data.hasKey t = true ∧ n2.frozen = n.frozen ∧ n2.modifier = n.modifier ∧
      t ∉ metaKeys ∧ n.frozen = false ∧ isRealModifier n.modifier = false ∧
      n2.data.keys = n.data.keys ++ [t] := by
  unfold set_value at h
  by_cases hf : n.frozen
  · simp [hf] at h
  · simp only [hf, Bool.false_eq_true, if_false, ht] at h
    by_cases hm : isRealModifier n.modifier
    · simp [hm] at h
    · by_cases hmeta : t ∈ metaKeys
      · simp [hm, hmeta] at h
      · by_cases hk : n.data.hasKey t
        · simp [hm, hmeta, hk] at h
        · simp only [hm, hmeta, hk, Bool.false_eq_true, if_false] at h
          have hlook : n.data.lookup t = none := by
            cases hl : n.data.lookup t with
            | none => rfl
            | some x => simp [Items.hasKey, hl] at hk
          cases v with
          | scalar v =>
              simp only [Prod.mk.injEq] at h
              refine ⟨?_, ?_, ?_, hmeta, by simp [hf], by simp [hm], ?_⟩ <;>
                rw [← h.1] <;>
                simp [Items.hasKey, lookup_snoc, hlook, hf, keys_snoc]
          | pydict entries =>
              rcases hadd : add_section n (.strKey t) none with ⟨n1, e⟩
              rw [hadd] at h
              cases e with
              | some e => simp at h
              | none =>
                  obtain ⟨hn1, -, -, -, -⟩ :=
                    add_section_success (y := .strKey t)
                      (by simpa [keyTransform] using keyTransform_idem ht) hadd
                  subst hn1
                  simp only [Prod.mk.injEq] at h
                  refine ⟨?_, ?_, ?_, hmeta, by simp [hf], by simp [hm], ?_⟩ <;>
                    rw [← h.1] <;>
                    simp [Items.hasKey, lookup_replace, lookup_snoc, hlook, hf,
                      keys_replace, keys_snoc]
          | pylist elems =>
              rcases hadd : add_section n (.strKey t) none with ⟨n1, e⟩
              rw [hadd] at h
              cases e with
              | some e => simp at h
              | none =>
                  obtain ⟨hn1, -, -, -, -⟩ :=
                    add_section_success (y := .strKey t)
                      (by simpa [keyTransform] using keyTransform_idem ht) hadd
                  subst hn1
                  simp only [Prod.mk.injEq] at h
                  refine ⟨?_, ?_, ?_, hmeta, by simp [hf], by simp [hm], ?_⟩ <;>
                    rw [← h.1] <;>
                    simp [Items.hasKey, lookup_replace, lookup_snoc, hlook, hf,
                      keys_replace, keys_snoc]

/-- A character that `__key_transform__` rewrites: an uppercase ASCII
letter (code points 65–90) or one of `-`, ` `, `.`. -/
def specialChar (c : Char) : Bool :=
  decide ((65 ≤ c.toNat ∧ c.toNat ≤ 90) ∨ c = '-' ∨ c = ' ' ∨ c = '.')

theorem normChar_ne {c : Char} (h : specialChar c = true) : normChar c ≠ c := by
  have h := of_decide_eq_true h
  rcases h with h | h | h | h
  · have hlow : c.toLower.toNat = c.toNat + 32 := by
      unfold Char.toLower
      rw [if_pos ⟨h.1, h.2⟩]
      exact char_toNat_ofNat_small (by omega)
    have hcond : ¬(c.toLower = '-' ∨ c.toLower = ' ' ∨ c.toLower = '.') := by
      intro hc
      rcases hc with hc | hc | hc
      · have h2 := congrArg Char.toNat hc
        rw [hlow, show Char.toNat '-' = 45 from rfl] at h2
        omega
      · have h2 := congrArg Char.toNat hc
        rw [hlow, show Char.toNat ' ' = 32 from rfl] at h2
        omega
      · have h2 := congrArg Char.toNat hc
        rw [hlow, show Char.toNat '.' = 46 from rfl] at h2
        omega
    rw [normChar, if_neg hcond]
    intro he
    have h3 := congrArg Char.toNat he
    rw [hlow] at h3
    omega
  · subst h; decide
  · subst h; decide
  · subst h; decide

theorem map_normChar_fix {l : List Char} (h : l.map normChar = l) :
    ∀ c ∈ l, normChar c = c := by
  induction l with
  | nil => intro c hc; simp at hc
  | cons c0 rest ih =>
      intro c hc
      simp only [List.map_cons, List.cons.injEq] at h
      rcases List.mem_cons.mp hc with hh | hh
      · subst hh; exact h.1
      · exact ih h.2 c hh

theorem keyTransformStr_ok_shape {s t : String} (h : keyTransformStr s = .ok t) :
    t = pyLowerRepl s := by
  unfold keyTransformStr at h
  cases hd : (pyLowerRepl s).data with
  | nil => rw [hd] at h; simp at h
  | cons c rest =>
      rw [hd] at h
      by_cases hdig : c.isDigit
      · simp [hdig] at h
      · simp only [hdig, Bool.false_eq_true, if_false, Except.ok.injEq] at h
        exact h.symm

/-- A key containing a character that the transform rewrites is changed by
the transform. -/
theorem transform_ne {k t : String}
    (hch : k.data.any specialChar = true)
    (ht : keyTransformStr k = .ok t) : t ≠ k := by
  intro he
  have htt : t = pyLowerRepl k := keyTransformStr_ok_shape ht
  subst he
  have hdata : t.data.map normChar = t.data := by
    have := congrArg String.data htt
    simp only [pyLowerRepl] at this
    exact this.symm
  obtain ⟨c, hc, hprop⟩ := List.any_eq_true.mp hch
  exact normChar_ne hprop (map_normChar_fix hdata c hc)

/-- No metadata key contains a transform-rewritten character. -/
theorem metaKeys_no_special {k : String} (hmem : k ∈ metaKeys) :
    k.data.any specialChar = false := by
  simp only [metaKeys] at hmem
  fin_cases hmem <;> decide

/-- C7: for admissible keys `k1 ≠ k2` that the key normalizer maps to the
same canonical identifier, setting `k1` and then `k2` on the same node
fails with the key-collision `KeyError`, leaving the state produced by the
first set (the first binding) unchanged. -/
theorem C7_key_collision {n : Node} {a b : PyKey} {u w : PyVal} {t : String} {n2 : Node}
    (hne : a ≠ b)
    (h1 : keyTransform a = .ok t) (h2 : keyTransform b = .ok t)
    (hset : set_value n a u = (n2, none)) :
    set_value n2 b w =
      (n2, some (.keyError "Cannot update existing data field or section")) := by
  obtain ⟨hk, hfz, hmod, hmeta, hf0, hm0, -⟩ := set_value_success h1 hset
  unfold set_value
  rw [hfz, hf0, h2, hmod]
  simp [hm0, hmeta, hk]

/-- Witness for C7 at `k1 = "A"`, `k2 = "a"`. -/
theorem C7_key_collision_witness :
    set_value (set_value (emptyNode none) (.strKey "A") (.scalar (.vint 1))).1
        (.strKey "a") (.scalar (.vint 2)) =
      ((set_value (emptyNode none) (.strKey "A") (.scalar (.vint 1))).1,
        some (.keyError "Cannot update existing data field or section")) :=
  C7_key_collision (n := emptyNode none) (a := .strKey "A") (b := .strKey "a")
    (u := .scalar (.vint 1)) (w := .scalar (.vint 2)) (t := "a")
    (by decide) rfl rfl rfl

/-- C9 (implicit): `key in node` tests the *normalized* key against
`__data__`, while `has_key` tests the *raw* key against `__meta__` and
`__data__`; hence a key with an uppercase/`-`/` `/`.` character bound via
`set_value` is reported by `in` but not by `has_key`, while the raw
metadata name `owner` is reported by `has_key` but not by `in`. -/
theorem C9_has_key_bypasses_transform {n : Node} {k : String} {v : PyVal}
    {n2 : Node} {t : String}
    (hch : k.data.any specialChar = true)
    (ht : keyTransformStr k = .ok t)
    (hset : set_value n (.strKey k) v = (n2, none))
    (hraw : n.data.hasKey k = false)
    (hown : n.data.hasKey "owner" = false)
    (htown : t ≠ "owner") :
    containsKey n2 (.strKey k) = .ok true ∧ has_key n2 k = false ∧
      has_key n2 "owner" = true ∧ containsKey n2 (.strKey "owner") = .ok false := by
  obtain ⟨hk, -, -, -, -, -, hkeys⟩ :=
    set_value_success (show keyTransform (.strKey k) = .ok t from ht) hset
  have hkmeta : k ∉ metaKeys := fun hmem => by
    rw [metaKeys_no_special hmem] at hch; exact Bool.false_ne_true hch
  have notMem : ∀ q : String, n.data.hasKey q = false → q ≠ t →
      n2.data.hasKey q = false := by
    intro q hq hqt
    rw [← Bool.not_eq_true, hasKey_mem_keys, hkeys]
    intro hmem
    rcases List.mem_append.mp hmem with hmem | hmem
    · rw [← hasKey_mem_keys] at hmem
      rw [hmem] at hq
      exact absurd hq (by decide)
    · exact hqt (List.mem_singleton.mp hmem)
  have hkn2 : n2.data.hasKey k = false :=
    notMem k hraw (fun hh => transform_ne hch ht hh.symm)
  have hokn2 : n2.data.hasKey "owner" = false :=
    notMem "owner" hown (fun hh => htown hh.symm)
  refine ⟨?_, ?_, ?_, ?_⟩
  · simp [containsKey, keyTransform, ht, hk]
  · simp [has_key, hkmeta, hkn2]
  · simp [has_key, metaKeys]
  · have hto : keyTransformStr "owner" = .ok "owner" := rfl
    simp [containsKey, keyTransform, hto, hokn2]

/-- Witness for C9: bind `"Some-Key"` on an empty root. -/
theorem C9_witness :
    containsKey (set_value (emptyNode none) (.strKey "Some-Key") (.scalar (.vint 7))).1
        (.strKey "Some-Key") = .ok true ∧
      has_key (set_value (emptyNode none) (.strKey "Some-Key") (.scalar (.vint 7))).1
        "Some-Key" = false ∧
      has_key (set_value (emptyNode none) (.strKey "Some-Key") (.scalar (.vint 7))).1
        "owner" = true ∧
      containsKey (set_value (emptyNode none) (.strKey "Some-Key") (.scalar (.vint 7))).1
        (.strKey "owner") = .ok false :=
  C9_has_key_bypasses_transform (n := emptyNode none) (v := .scalar (.vint 7))
    (t := "some_key") (by decide) rfl rfl rfl rfl (by decide)

/-- C10 (implicit): `setdefault` never stores its default.  When the key
does not resolve via `get_value`, the call always raises (the source
invokes `set_value` with a single argument, so Python reports a missing
positional argument) and the node is unchanged; when the key resolves,
the existing resolution is returned, again without mutation. -/
theorem C10_setdefault_never_stores (n : Node) (key : PyKey) (d : PyVal) :
    (getValueR n key = .ok .absent → n.frozen = false →
      setdefault n key d =
        (n, .error (.typeError "set_value() missing 1 required positional argument: value"))) ∧
    (∀ g, getValueR n key = .ok g → g ≠ .absent → n.frozen = false →
      setdefault n key d = (n, .ok g)) := by
  constructor
  · intro h hf
    simp [setdefault, hf, h]
  · intro g h hg hf
    cases g with
    | absent => exact absurd rfl hg
    | metaVal f => simp [setdefault, hf, h]
    | item it => simp [setdefault, hf, h]

/-- Witness for C10: an unresolvable key errors and leaves the node
unchanged; a bound key returns its value. -/
theorem C10_witness :
    (setdefault (emptyNode none) (.strKey "missing") (.scalar (.vint 1)) =
      (emptyNode none,
        .error (.typeError "set_value() missing 1 required positional argument: value"))) ∧
    (setdefault (set_value (emptyNode none) (.strKey "a") (.scalar (.vint 5))).1
        (.strKey "a") (.scalar (.vint 1)) =
      ((set_value (emptyNode none) (.strKey "a") (.scalar (.vint 5))).1,
        .ok (.item (.val (.vint 5))))) :=
  ⟨(C10_setdefault_never_stores (emptyNode none) (.strKey "missing")
      (.scalar (.vint 1))).1 rfl rfl,
   (C10_setdefault_never_stores _ (.strKey "a") (.scalar (.vint 1))).2
      (.item (.val (.vint 5))) rfl (by simp) rfl⟩

/-- C5 counterexample: a failed `set_value` of a `dict` value is *not*
atomic.  Setting `x = {"9bad": 5}` on an empty root raises (the inner key
starts with a digit) but leaves behind the empty child section `x` created
by `add_section` before the inner assignment ran. -/
theorem C5_counterexample :
    set_value (emptyNode none) (.strKey "x")
        (.pydict (.cons "9bad" (.scalar (.vint 5)) .nil)) =
      (.mk (.cons "x" (.sec (emptyNode none)) .nil) [.okey "x"] ["x"] none false,
        some (.keyError "Key must be a valid python name (cannot start with a digit)")) ∧
    (Node.mk (.cons "x" (.sec (emptyNode none)) .nil) [.okey "x"] ["x"] none false)
      ≠ emptyNode none := by
  refine ⟨rfl, fun h => ?_⟩
  have h2 := congrArg Node.data h
  simp [emptyNode] at h2

/-- A failed scalar `set_value` leaves the state unchanged (every check
runs before the mutation). -/
theorem set_value_scalar_err_state {n : Node} {k : PyKey} {v : Val} {n2 : Node}
    {e : Err} (h : set_value n k (.scalar v) = (n2, some e)) : n2 = n := by
  unfold set_value at h
  by_cases hf : n.frozen
  · simp [hf] at h; exact h.1.symm
  · cases hkt : keyTransform k with
    | error e2 =>
        simp only [hf, Bool.false_eq_true, if_false, hkt, Prod.mk.injEq] at h
        exact h.1.symm
    | ok t =>
        simp only [hf, Bool.false_eq_true, if_false, hkt] at h
        by_cases hm : isRealModifier n.modifier
        · simp [hm] at h; exact h.1.symm
        · by_cases hmeta : t ∈ metaKeys
          · simp [hm, hmeta] at h; exact h.1.symm
          · by_cases hk : n.data.hasKey t
            · simp [hm, hmeta, hk] at h; exact h.1.symm
            · simp [hm, hmeta, hk] at h

/-- A failed `add_section` leaves the state unchanged. -/
theorem add_section_err_state {n : Node} {k : PyKey} {st : Option String}
    {n2 : Node} {e : Err} (h : add_section n k st = (n2, some e)) : n2 = n := by
  unfold add_section at h
  by_cases hf : n.frozen
  · simp [hf] at h; exact h.1.symm
  · cases hkt : keyTransform k with
    | error e2 =>
        simp only [hf, Bool.false_eq_true, if_false, hkt, Prod.mk.injEq] at h
        exact h.1.symm
    | ok t =>
        simp only [hf, Bool.false_eq_true, if_false, hkt] at h
        by_cases hmeta : t ∈ metaKeys
        · simp [hmeta] at h; exact h.1.symm
        · by_cases hsec : t ∈ n.sections
          · simp [hmeta, hsec] at h; exact h.1.symm
          · cases hkt2 : keyTransformStr t with
            | error e2 =>
                simp only [hmeta, hsec, hkt2, decide_False, Bool.false_eq_true,
                  if_false, Prod.mk.injEq] at h
                exact h.1.symm
            | ok t2 =>
                simp only [hmeta, hsec, hkt2, decide_False, Bool.false_eq_true,
                  if_false] at h
                by_cases hk : n.data.hasKey t2
                · simp [hk] at h; exact h.1.symm
                · simp [hk] at h

/-- C5 amended: a failed `set_value` of a *scalar* value, and a failed
`add_section`, leave the node exactly as it was (all their checks run
before any mutation); only a failed `set` of a mapping/sequence value can
leave a partially populated child section behind. -/
theorem C5_atomicity_amended :
    (∀ (n : Node) (k : PyKey) (v : Val) (n2 : Node) (e : Err),
        set_value n k (.scalar v) = (n2, some e) → n2 = n) ∧
    (∀ (n : Node) (k : PyKey) (st : Option String) (n2 : Node) (e : Err),
        add_section n k st = (n2, some e) → n2 = n) :=
  ⟨fun _ _ _ _ _ h => set_value_scalar_err_state h,
   fun _ _ _ _ _ h => add_section_err_state h⟩

/-- Witness for the amended C5: a scalar key collision and a repeated
`add_section` both fail and leave the tree unchanged. -/
theorem C5_atomicity_witness :
    (set_value (set_value (emptyNode none) (.strKey "a") (.scalar (.vint 1))).1
        (.strKey "a") (.scalar (.vint 2))).1 =
      (set_value (emptyNode none) (.strKey "a") (.scalar (.vint 1))).1 ∧
    (add_section (add_section (emptyNode none) (.strKey "s") none).1
        (.strKey "s") none).1 =
      (add_section (emptyNode none) (.strKey "s") none).1 :=
  ⟨C5_atomicity_amended.1 _ (.strKey "a") (.vint 2) _
      (.keyError "Cannot update existing data field or section") rfl,
   C5_atomicity_amended.2 _ (.strKey "s") none _
      (.keyError "section already exists") rfl⟩

/-- C8 (code bug): iterating a node whose keys do not all match the
`list<N>` pattern does not fall back to the raw keys — the generator body
of `iter_as_list` runs only on first advance, outside `__iter__`'s
`try/except`, so iteration raises `AssertionError`.  The raw-key fallback
the claim (and the source's own `try/except`) intends would have yielded
`["a"]` here. -/
theorem C8_iter_raises_instead_of_fallback :
    iterConfig (set_value (emptyNode none) (.strKey "a") (.scalar (.vint 1))).1 =
      .error (.assertionError "all keys start with list") ∧
    (set_value (emptyNode none) (.strKey "a") (.scalar (.vint 1))).1.data.keys = ["a"] :=
  ⟨rfl, rfl⟩

/-- C3 (code bug): after `set_immutable(recursive=True, from_root=True)`
stored values are still readable and guarded mutators fail naming the
operation — but the `del cfg[k]` statement still deletes: Python's implicit
special-method lookup finds `__delitem__` on the class, bypassing the
raising stub that `set_immutable` installed on the instance. -/
theorem C3_del_statement_bypasses_freeze :
    set_immutable (set_value (emptyNode none) (.strKey "a") (.scalar (.vint 1))).1
        [] true true =
      (.mk (.cons "a" (.val (.vint 1)) .nil) [.okey "a"] [] none true, none) ∧
    getValueR (.mk (.cons "a" (.val (.vint 1)) .nil) [.okey "a"] [] none true)
        (.strKey "a") = .ok (.item (.val (.vint 1))) ∧
    set_value (.mk (.cons "a" (.val (.vint 1)) .nil) [.okey "a"] [] none true)
        (.strKey "b") (.scalar (.vint 2)) =
      (.mk (.cons "a" (.val (.vint 1)) .nil) [.okey "a"] [] none true,
        some (.immutable "set_value")) ∧
    delitemStmt (.mk (.cons "a" (.val (.vint 1)) .nil) [.okey "a"] [] none true)
        (.strKey "a") =
      (.mk .nil [.okey "a"] [] none true, none) :=
  ⟨rfl, rfl, rfl, rfl⟩

theorem popTo_eq_dropWhile (indent : Nat) (stk : List (Nat × List String)) :
    popTo indent stk =
      match stk.dropWhile (fun f => f.1 ≠ indent) with
      | [] => .error (.valueError "Unexpected indentation")
      | s => .ok s := by
  induction stk with
  | nil => simp [popTo]
  | cons f rest ih =>
      rcases f with ⟨j, q⟩
      by_cases hj : j = indent
      · subst hj
        simp [popTo, List.dropWhile]
      · simp [popTo, List.dropWhile, hj, ih]

/-- C2: `__update_indent`.  When the line's indent exceeds the indent at
the top of the stack, the line is accepted only if a pending new section
exists, which is then pushed with the line's indent (and the pending slot
cleared); otherwise the parse fails with the unexpected-indentation error.
When the indent does not exceed the top, the stack is popped until its top
indent equals the line's indent, and exhausting the stack first is the same
fatal error. -/
theorem C2_update_indent (st : PState) (j : Nat) (q : List String)
    (rest : List (Nat × List String)) (indent : Nat)
    (hstack : st.stack = (j, q) :: rest) :
    (j < indent →
      (st.pending = none →
        updateIndent indent st = .error (.valueError "Unexpected indentation")) ∧
      (∀ c, st.pending = some c →
        updateIndent indent st = .ok ⟨st.root, (indent, c) :: (j, q) :: rest, none⟩)) ∧
    (indent ≤ j →
      updateIndent indent st =
        match ((j, q) :: rest).dropWhile (fun f => f.1 ≠ indent) with
        | [] => .error (.valueError "Unexpected indentation")
        | s => .ok ⟨st.root, s, none⟩) := by
  constructor
  · intro hj
    constructor
    · intro hpend
      simp [updateIndent, hstack, hj, hpend]
    · intro c hpend
      simp [updateIndent, hstack, hj, hpend, popTo]
  · intro hj
    have hnot : ¬ j < indent := by omega
    rw [updateIndent, hstack]
    simp only [hnot, if_false]
    rw [popTo_eq_dropWhile]
    cases hdw : ((j, q) :: rest).dropWhile (fun f => f.1 ≠ indent) with
    | nil => simp
    | cons f s => simp

/-- Witness for C2: a push with a pending section, the unexpected
indentation error without one, and a dedent to a level never opened. -/
theorem C2_update_indent_witness :
    updateIndent 4 ⟨emptyNode none, [(0, [])], some ["s"]⟩ =
      .ok ⟨emptyNode none, [(4, ["s"]), (0, [])], none⟩ ∧
    updateIndent 4 ⟨emptyNode none, [(0, [])], none⟩ =
      .error (.valueError "Unexpected indentation") ∧
    updateIndent 2 ⟨emptyNode none, [(4, ["s"]), (0, [])], none⟩ =
      .error (.valueError "Unexpected indentation") :=
  ⟨((C2_update_indent ⟨emptyNode none, [(0, [])], some ["s"]⟩ 0 [] [] 4 rfl).1
      (by omega)).2 ["s"] rfl,
   ((C2_update_indent ⟨emptyNode none, [(0, [])], none⟩ 0 [] [] 4 rfl).1
      (by omega)).1 rfl,
   (C2_update_indent ⟨emptyNode none, [(4, ["s"]), (0, [])], none⟩ 4 ["s"]
      [(0, [])] 2 rfl).2 (by omega)⟩

/-! ## C4: the globals fallback -/

theorem nodeAll_local {P : Node → Bool} {n : Node} (h : nodeAll P n = true) :
    P n = true := by
  cases n with
  | mk d o s m f =>
      unfold nodeAll at h
      rw [Bool.and_eq_true] at h
      exact h.1

theorem itemsAll_lookup_sec {P : Node → Bool} {d : Items} {k : String} {c : Node}
    (h : itemsAll P d = true) (hl : d.lookup k = some (.sec c)) :
    nodeAll P c = true := by
  induction d using itemsInd with
  | hnil => simp [Items.lookup] at hl
  | hcons k0 it0 rest ih =>
      unfold itemsAll at h
      rw [Bool.and_eq_true] at h
      obtain ⟨h1, h2⟩ := h
      by_cases hk : k0 = k
      · simp only [Items.lookup, if_pos hk] at hl
        cases it0 with
        | val v => simp at hl
        | sec n0 =>
            simp only [Option.some.injEq, Item.sec.injEq] at hl
            subst hl
            exact h1
      · simp only [Items.lookup, if_neg hk] at hl
        exact ih h2 hl

theorem nodeAll_lookup_sec {P : Node → Bool} {n : Node} {k : String} {c : Node}
    (h : nodeAll P n = true) (hl : n.data.lookup k = some (.sec c)) :
    nodeAll P c = true := by
  cases n with
  | mk d o s m f =>
      unfold nodeAll at h
      rw [Bool.and_eq_true] at h
      exact itemsAll_lookup_sec h.2 hl

theorem nodeAll_nodeAt {P : Node → Bool} {r : Node} {q : List String} {c : Node}
    (h : nodeAll P r = true) (hq : nodeAt r q = some c) : nodeAll P c = true := by
  induction q generalizing r with
  | nil => simp only [nodeAt, Option.some.injEq] at hq; subst hq; exact h
  | cons k ps ih =>
      simp only [nodeAt] at hq
      cases hl : r.data.lookup k with
      | none => rw [hl] at hq; simp at hq
      | some it =>
          cases it with
          | val v => rw [hl] at hq; simp at hq
          | sec c0 =>
              rw [hl] at hq
              exact ih (nodeAll_lookup_sec h hl) hq

theorem nodeAt_take {r : Node} {p : List String} {n : Node}
    (h : nodeAt r p = some n) : ∀ m, ∃ c, nodeAt r (p.take m) = some c := by
  induction p generalizing r with
  | nil => intro m; exact ⟨r, by simp [nodeAt]⟩
  | cons k ps ih =>
      intro m
      cases m with
      | zero => exact ⟨r, rfl⟩
      | succ m2 =>
          simp only [nodeAt] at h
          cases hl : r.data.lookup k with
          | none => rw [hl] at h; simp at h
          | some it =>
              cases it with
              | val v => rw [hl] at h; simp at h
              | sec c0 =>
                  rw [hl] at h
                  obtain ⟨c, hc⟩ := ih h m2
                  exact ⟨c, by simp [nodeAt, hl, hc]⟩

/-- One step of the `while` loop of `__getitem__` (the defining equation of
`globalsWalk` on a non-empty chain). -/
theorem globalsWalk_cons (r : Node) (key : PyKey) (q : List String)
    (qs : List (List String)) :
    globalsWalk r key (q :: qs) =
      match nodeAt r q with
      | none => .error (.unmodelled "owner chain path does not resolve")
      | some conf =>
          if has_section conf "globals" then
            match getValueR conf (.strKey "globals") with
            | .error e => .error e
            | .ok (.item (.sec g)) =>
                match containsKey g key with
                | .error e => .error e
                | .ok true =>
                    match getValueR g key with
                    | .error e => .error e
                    | .ok (.metaVal f) => .ok (some (.metaVal f))
                    | .ok (.item it) => .ok (some (.item it))
                    | .ok .absent => .error (.unmodelled "contains/get disagree")
                | .ok false => globalsWalk r key qs
            | .ok (.item (.val _)) => .error (.typeError "argument is not iterable")
            | .ok (.metaVal _) => .error (.unmodelled "globals is not a meta field")
            | .ok .absent => .error (.unmodelled "sections set out of sync with data")
          else globalsWalk r key qs := rfl

/-- The `while` loop of `__getitem__` agrees with the specification-style
nearest-ancestor search: on a chain of resolvable paths in a tree whose
`__sections__` sets are in sync and whose modifiers are inert, it returns
the first `globals` hit, or `none` when there is no hit. -/
theorem globalsWalk_spec {r : Node} {key : PyKey} {tk : String}
    (ht : keyTransform key = .ok tk) (hmeta : tk ∉ metaKeys)
    (hsec : secOk r = true) (hmod : noRealMod r = true) :
    ∀ qs : List (List String), (∀ q ∈ qs, ∃ c, nodeAt r q = some c) →
      ((qs.findSome? (globalsHit r tk) = none → globalsWalk r key qs = .ok none) ∧
       (∀ it, qs.findSome? (globalsHit r tk) = some it →
          globalsWalk r key qs = .ok (some (.item it)))) := by
  intro qs
  induction qs with
  | nil => intro _; exact ⟨fun _ => rfl, fun it h => by simp at h⟩
  | cons q qs ih =>
      intro hres
      obtain ⟨conf, hconf⟩ := hres q (List.mem_cons_self q qs)
      have hres2 : ∀ q2 ∈ qs, ∃ c, nodeAt r q2 = some c :=
        fun q2 hq2 => hres q2 (List.mem_cons_of_mem q hq2)
      by_cases hg : "globals" ∈ conf.sections
      · -- the node has a globals section: it is a real child by `secOk`
        have hloc : secLocal conf = true :=
          nodeAll_local (nodeAll_nodeAt hsec hconf)
        have hgl := List.all_eq_true.mp hloc "globals" hg
        cases hlook : conf.data.lookup "globals" with
        | none => rw [hlook] at hgl; simp at hgl
        | some it0 =>
            cases it0 with
            | val v => rw [hlook] at hgl; simp at hgl
            | sec g =>
                have hmconf : isRealModifier conf.modifier = false := by
                  have := nodeAll_local (nodeAll_nodeAt hmod hconf)
                  simpa using this
                have hmg : isRealModifier g.modifier = false := by
                  have := nodeAll_local
                    (nodeAll_lookup_sec (nodeAll_nodeAt hmod hconf) hlook)
                  simpa using this
                have hgv : getValueR conf (.strKey "globals") = .ok (.item (.sec g)) := by
                  unfold getValueR
                  rw [show keyTransform (.strKey "globals") = .ok "globals" from rfl]
                  simp [show ("globals" ∈ metaKeys) = False by simp [metaKeys], hmconf, hlook]
                by_cases hk : g.data.hasKey tk
                · obtain ⟨it1, hit1⟩ := Option.isSome_iff_exists.mp hk
                  have hhit : globalsHit r tk q = some it1 := by
                    simp [globalsHit, hconf, hg, hlook, hit1]
                  have hgv2 : getValueR g key = .ok (.item it1) := by
                    unfold getValueR
                    rw [ht]
                    simp [hmeta, hmg, hit1]
                  have hwalk : globalsWalk r key (q :: qs) = .ok (some (.item it1)) := by
                    rw [globalsWalk_cons, hconf]
                    simp only [has_section, hg, decide_True, if_true, hgv]
                    simp [containsKey, ht, Items.hasKey, hit1, hgv2]
                  constructor
                  · intro hnone
                    rw [List.findSome?_cons, hhit] at hnone
                    simp at hnone
                  · intro it hsome
                    rw [List.findSome?_cons, hhit] at hsome
                    simp only [Option.some.injEq] at hsome
                    subst hsome
                    exact hwalk
                · have hlooknone : g.data.lookup tk = none := by
                    cases hl2 : g.data.lookup tk with
                    | none => rfl
                    | some x => simp [Items.hasKey, hl2] at hk
                  have hhit : globalsHit r tk q = none := by
                    simp [globalsHit, hconf, hg, hlook, hlooknone]
                  have hstep : globalsWalk r key (q :: qs) = globalsWalk r key qs := by
                    rw [globalsWalk_cons, hconf]
                    simp [has_section, hg, hgv, containsKey, ht, Items.hasKey, hlooknone]
                  rw [hstep, List.findSome?_cons, hhit]
                  exact ih hres2
      · have hhit : globalsHit r tk q = none := by
          simp [globalsHit, hconf, hg]
        have hstep : globalsWalk r key (q :: qs) = globalsWalk r key qs := by
          rw [globalsWalk_cons, hconf]
          simp [has_section, hg]
        rw [hstep, List.findSome?_cons, hhit]
        exact ih hres2

/-- C4: for a node `n` at path `p` and key `k`, if `k` does not resolve on
`n` itself via `get_value`, `n[k]` returns the value of `k` found in the
`globals` section of the nearest node on the owner chain (starting at `n`,
walking toward the root) whose `globals` section contains the normalized
key; and an own binding for `k` is always returned in preference to any
ancestor's `globals` entry.  (The tree is required to have its
`__sections__` sets in sync and inert modifiers.) -/
theorem C4_globals_fallback {r : Node} {p : List String} {y : PyKey}
    {u : String} {n : Node}
    (hsec : secOk r = true) (hmod : noRealMod r = true)
    (hn : nodeAt r p = some n)
    (ht : keyTransform y = .ok u) :
    (getValueR n y = .ok .absent →
      ∀ it, nearestGlobals r p u = some it →
        getitem r p y = .ok (.item it, r)) ∧
    (∀ it, getValueR n y = .ok (.item it) →
      getitem r p y = .ok (.item it, r)) := by
  constructor
  · intro habs it hnear
    have hmeta : u ∉ metaKeys := by
      intro hmem
      unfold getValueR at habs
      rw [ht] at habs
      simp [hmem] at habs
    have hres : ∀ q ∈ ownerChain p, ∃ c, nodeAt r q = some c := by
      intro q hq
      simp only [ownerChain, List.mem_map] at hq
      obtain ⟨i, -, hqe⟩ := hq
      subst hqe
      exact nodeAt_take hn _
    have hwalk := (globalsWalk_spec ht hmeta hsec hmod (ownerChain p) hres).2 it hnear
    unfold getitem
    simp [hn, habs, hwalk]
  · intro it hgv
    unfold getitem
    simp [hn, hgv]

/-- The concrete tree of the C4 witness: `cfg.globals.a = 1` plus an empty
`level1` section. -/
def c4Tree : Node :=
  .mk (.cons "globals"
         (.sec (.mk (.cons "a" (.val (.vint 1)) .nil) [.okey "a"] [] none false))
       (.cons "level1" (.sec (emptyNode none)) .nil))
    [.okey "globals", .okey "level1"] ["globals", "level1"] none false

/-- Witness for C4: `cfg.globals.a = 1`; `cfg.level1.a` resolves to `1`
through the ancestor search, and `cfg.globals.a` itself resolves to its own
binding. -/
theorem C4_globals_witness :
    getitem c4Tree ["level1"] (.strKey "a") = .ok (.item (.val (.vint 1)), c4Tree) ∧
    getitem c4Tree ["globals"] (.strKey "a") = .ok (.item (.val (.vint 1)), c4Tree) :=
  ⟨(C4_globals_fallback (r := c4Tree) (p := ["level1"]) (y := .strKey "a")
      (u := "a") (n := emptyNode none) rfl rfl rfl rfl).1 rfl (.val (.vint 1)) rfl,
   (C4_globals_fallback (r := c4Tree) (p := ["globals"]) (y := .strKey "a")
      (u := "a")
      (n := .mk (.cons "a" (.val (.vint 1)) .nil) [.okey "a"] [] none false)
      rfl rfl rfl rfl).2 (.val (.vint 1)) rfl⟩

/-! ## C6: the sections-subset invariant -/

/-- C6 counterexample: `clear()` empties `__data__` (via `set_modifier`)
but leaves `__sections__` untouched, so after adding a section and clearing
the node, `sections = ["s"]` is not a subset of the (empty) data keys. -/
theorem C6_counterexample :
    clear (add_section (emptyNode none) (.strKey "s") none).1 =
      (.mk .nil [.okey "s"] ["s"] none false, none) ∧
    secOk (.mk .nil [.okey "s"] ["s"] none false) = false := ⟨rfl, rfl⟩

/- Pointwise monotonicity of `nodeAll`. -/
mutual
theorem nodeAll_imp {P Q : Node → Bool} (h : ∀ n, P n = true → Q n = true) :
    ∀ n, nodeAll P n = true → nodeAll Q n = true
  | .mk d o s m f, hn => by
      unfold nodeAll at *
      rw [Bool.and_eq_true] at hn
      rw [Bool.and_eq_true]
      exact ⟨h _ hn.1, itemsAll_imp h d hn.2⟩
theorem itemsAll_imp {P Q : Node → Bool} (h : ∀ n, P n = true → Q n = true) :
    ∀ d, itemsAll P d = true → itemsAll Q d = true
  | .nil, _ => rfl
  | .cons k it rest, hd => by
      unfold itemsAll at *
      rw [Bool.and_eq_true] at hd
      rw [Bool.and_eq_true]
      exact ⟨itemAll_imp h it hd.1, itemsAll_imp h rest hd.2⟩
theorem itemAll_imp {P Q : Node → Bool} (h : ∀ n, P n = true → Q n = true) :
    ∀ it, itemAll P it = true → itemAll Q it = true
  | .val _, _ => rfl
  | .sec n, hit => nodeAll_imp h n hit
end

theorem itemsAll_snoc {P : Node → Bool} {d : Items} {k : String} {it : Item}
    (hd : itemsAll P d = true) (hit : itemAll P it = true) :
    itemsAll P (d.snoc k it) = true := by
  induction d using itemsInd with
  | hnil => simp [Items.snoc, itemsAll, hit]
  | hcons k0 it0 rest ih =>
      unfold itemsAll at hd
      rw [Bool.and_eq_true] at hd
      unfold Items.snoc itemsAll
      rw [Bool.and_eq_true]
      exact ⟨hd.1, ih hd.2⟩

theorem itemsAll_replace {P : Node → Bool} {d : Items} {k : String} {it : Item}
    (hd : itemsAll P d = true) (hit : itemAll P it = true) :
    itemsAll P (d.replace k it) = true := by
  induction d using itemsInd with
  | hnil => rfl
  | hcons k0 it0 rest ih =>
      unfold itemsAll at hd
      rw [Bool.and_eq_true] at hd
      unfold Items.replace
      by_cases h0 : k0 = k
      · rw [if_pos h0]
        unfold itemsAll
        rw [Bool.and_eq_true]
        exact ⟨hit, hd.2⟩
      · rw [if_neg h0]
        unfold itemsAll
        rw [Bool.and_eq_true]
        exact ⟨hd.1, ih hd.2⟩

theorem itemsAll_erase {P : Node → Bool} {d : Items} {k : String}
    (hd : itemsAll P d = true) : itemsAll P (d.erase k) = true := by
  induction d using itemsInd with
  | hnil => rfl
  | hcons k0 it0 rest ih =>
      unfold itemsAll at hd
      rw [Bool.and_eq_true] at hd
      unfold Items.erase
      by_cases h0 : k0 = k
      · rw [if_pos h0]; exact hd.2
      · rw [if_neg h0]
        unfold itemsAll
        rw [Bool.and_eq_true]
        exact ⟨hd.1, ih hd.2⟩

theorem keys_erase (d : Items) (k : String) : (d.erase k).keys = d.keys.erase k := by
  induction d using itemsInd with
  | hnil => simp [Items.erase, Items.keys]
  | hcons k0 it0 rest ih =>
      by_cases h0 : k0 = k
      · subst h0
        simp [Items.erase, Items.keys, List.erase_cons_head]
      · simp [Items.erase, Items.keys, h0, ih, List.erase_cons_tail,
          (by simpa using h0 : (k0 == k) = false)]

/-- The C6 invariant strengthened to be inductive: sections sync plus no
duplicate data keys and no duplicate section entries (the source maintains
these via the collision checks and the `set` type of `__sections__`). -/
def secInvLocal (n : Node) : Bool :=
  secLocal n && decide n.data.keys.Nodup && decide n.sections.Nodup

def secInv : Node → Bool := nodeAll secInvLocal

theorem secInv_imp_secOk {r : Node} (h : secInv r = true) : secOk r = true :=
  nodeAll_imp (fun n hn => by
    unfold secInvLocal at hn
    rw [Bool.and_eq_true, Bool.and_eq_true] at hn
    exact hn.1.1) r h

/-- A predicate preserved when a section child is replaced by another
section child (the shape ancestors see is unchanged). -/
def ReplStable (P : Node → Bool) : Prop :=
  ∀ d o s m f (k : String) (c c' : Node), d.lookup k = some (.sec c) →
    P (.mk d o s m f) = true → P (.mk (d.replace k (.sec c')) o s m f) = true

theorem secInvLocal_replStable : ReplStable secInvLocal := by
  intro d o s m f k c c' hl hP
  unfold secInvLocal at *
  rw [Bool.and_eq_true, Bool.and_eq_true] at hP
  rw [Bool.and_eq_true, Bool.and_eq_true]
  obtain ⟨⟨hloc, hnd⟩, hns⟩ := hP
  refine ⟨⟨?_, ?_⟩, ?_⟩
  · unfold secLocal at *
    simp only [Node.sections_mk, Node.data_mk] at *
    rw [List.all_eq_true] at hloc ⊢
    intro q hq
    have := hloc q hq
    rw [lookup_replace]
    by_cases hk : k = q
    · rw [if_pos hk, hl]
    · rw [if_neg hk]; exact this
  · simpa [keys_replace] using hnd
  · simpa using hns

/-- `nodeAll` preservation through a method call at a path. -/
theorem nodeAll_applyAt {P : Node → Bool} (hP : ReplStable P)
    (f : Node → Node × Option Err)
    (hf : ∀ n, nodeAll P n = true → nodeAll P (f n).1 = true) :
    ∀ (p : List String) (r : Node), nodeAll P r = true →
      nodeAll P (applyAt r p f).1 = true := by
  intro p
  induction p with
  | nil =>
      intro r hr
      unfold applyAt
      simp only [nodeAt]
      cases hfr : f r with
      | mk n2 e =>
          have h2 := hf r hr
          rw [hfr] at h2
          simpa [setAt] using h2
  | cons k ps ih =>
      intro r hr
      cases hl : r.data.lookup k with
      | none =>
          unfold applyAt
          rw [show nodeAt r (k :: ps) = none by simp [nodeAt, hl]]
          simpa using hr
      | some it =>
          cases it with
          | val v =>
              unfold applyAt
              rw [show nodeAt r (k :: ps) = none by simp [nodeAt, hl]]
              simpa using hr
          | sec c =>
              have hstep : nodeAt r (k :: ps) = nodeAt c ps := by simp [nodeAt, hl]
              cases hn : nodeAt c ps with
              | none =>
                  unfold applyAt
                  rw [hstep, hn]
                  simpa using hr
              | some n =>
                  cases hfr : f n with
                  | mk n2 e =>
                      have hsub : nodeAll P (applyAt c ps f).1 = true :=
                        ih c (nodeAll_lookup_sec hr hl)
                      have heq : (applyAt c ps f).1 = setAt c ps n2 := by
                        simp [applyAt, hn, hfr]
                      rw [heq] at hsub
                      have hres : (applyAt r (k :: ps) f).1 =
                          setAt r (k :: ps) n2 := by
                        simp [applyAt, hstep, hn, hfr]
                      cases r with
                      | mk d o s m f0 =>
                          simp only [Node.data_mk] at hl
                          rw [hres]
                          simp only [setAt, Node.data_mk, Node.order_mk,
                            Node.sections_mk, Node.modifier_mk, Node.frozen_mk, hl]
                          unfold nodeAll at hr ⊢
                          rw [Bool.and_eq_true] at hr ⊢
                          exact ⟨hP d o s m f0 k c _ hl hr.1,
                            itemsAll_replace hr.2 hsub⟩

theorem secInv_emptyNode (m : Option String) : secInv (emptyNode m) = true := rfl

theorem secInv_fields {d : Items} {o : List OEnt} {s : List String}
    {m : Option String} {fz : Bool} (h : secInv (.mk d o s m fz) = true) :
    secLocal (.mk d o s m fz) = true ∧ d.keys.Nodup ∧ s.Nodup ∧
      itemsAll secInvLocal d = true := by
  unfold secInv nodeAll secInvLocal at h
  rw [Bool.and_eq_true, Bool.and_eq_true, Bool.and_eq_true] at h
  exact ⟨h.1.1.1, of_decide_eq_true h.1.1.2, of_decide_eq_true h.1.2, h.2⟩

theorem secInv_build {d : Items} {o : List OEnt} {s : List String}
    {m : Option String} {fz : Bool}
    (h1 : secLocal (.mk d o s m fz) = true) (h2 : d.keys.Nodup) (h3 : s.Nodup)
    (h4 : itemsAll secInvLocal d = true) : secInv (.mk d o s m fz) = true := by
  unfold secInv nodeAll secInvLocal
  rw [Bool.and_eq_true, Bool.and_eq_true, Bool.and_eq_true]
  exact ⟨⟨⟨h1, decide_eq_true h2⟩, decide_eq_true h3⟩, h4⟩

/-- `secInv` after replacing a section child with another well-formed
tree. -/
theorem secInv_replace_sec {n : Node} {t : String} {c c' : Node}
    (h : secInv n = true) (hl : n.data.lookup t = some (.sec c))
    (hc : secInv c' = true) :
    secInv (.mk (n.data.replace t (.sec c')) n.order n.sections n.modifier
      n.frozen) = true := by
  cases n with
  | mk d o s m fz =>
      simp only [Node.data_mk, Node.order_mk, Node.sections_mk,
        Node.modifier_mk, Node.frozen_mk] at *
      obtain ⟨hloc, hnd, hns, hall⟩ := secInv_fields h
      refine secInv_build ?_ (by simpa [keys_replace] using hnd) hns
        (itemsAll_replace hall hc)
      unfold secLocal at hloc ⊢
      simp only [Node.sections_mk, Node.data_mk] at *
      rw [List.all_eq_true] at hloc ⊢
      intro q hq
      rw [lookup_replace]
      by_cases hk : t = q
      · rw [if_pos hk, hl]
      · rw [if_neg hk]; exact hloc q hq

/-- A successful `add_section` preserves `secInv`. -/
theorem secInv_add_section (n : Node) (k : PyKey) (st : Option String)
    (h : secInv n = true) : secInv (add_section n k st).1 = true := by
  rcases hres : add_section n k st with ⟨n2, e⟩
  cases e with
  | some e2 => rw [add_section_err_state hres]; exact h
  | none =>
      cases hkt : keyTransform k with
      | error e2 =>
          exfalso
          unfold add_section at hres
          by_cases hf : n.frozen
          · simp [hf] at hres
          · simp [hf, hkt] at hres
      | ok t =>
          obtain ⟨hn2, -, -, hsec, hk⟩ := add_section_success hkt hres
          subst hn2
          cases n with
          | mk d o s m fz =>
              simp only [Node.data_mk, Node.order_mk, Node.sections_mk,
                Node.modifier_mk, Node.frozen_mk] at *
              obtain ⟨hloc, hnd, hns, hall⟩ := secInv_fields h
              have hlookt : d.lookup t = none := by
                cases hl2 : d.lookup t with
                | none => rfl
                | some x => simp [Items.hasKey, hl2] at hk
              have hmem : t ∉ d.keys := by
                rw [← hasKey_mem_keys]
                simp [hk]
              refine secInv_build ?_ ?_ ?_
                (itemsAll_snoc hall (secInv_emptyNode st))
              · unfold secLocal at hloc ⊢
                simp only [Node.sections_mk, Node.data_mk] at *
                rw [List.all_eq_true] at hloc ⊢
                intro q hq
                rcases List.mem_append.mp hq with hq | hq
                · have := hloc q hq
                  rw [lookup_snoc]
                  cases hl2 : d.lookup q with
                  | none => rw [hl2] at this; simp at this
                  | some x => rw [hl2] at this; simpa [hl2] using this
                · have hq : q = t := List.mem_singleton.mp hq
                  subst hq
                  rw [lookup_snoc, hlookt]
                  simp
              · rw [keys_snoc]
                simp [List.Nodup, List.pairwise_append]
                refine ⟨hnd, fun q hq hqt => ?_⟩
                subst hqt
                exact hmem hq
              · simp [List.Nodup, List.pairwise_append]
                refine ⟨hns, fun q hq hqt => ?_⟩
                subst hqt
                exact hsec hq

/- `secInv` preservation for `set_value` (mutual over the value shape). -/
mutual
theorem secInv_set_value : ∀ (n : Node) (k : PyKey) (v : PyVal),
    secInv n = true → secInv (set_value n k v).1 = true
  | n, k, v, h => by
      rcases hres : set_value n k v with ⟨n2, e⟩
      unfold set_value at hres
      by_cases hf : n.frozen
      · simp only [hf, if_true, Prod.mk.injEq] at hres
        rw [← hres.1]; exact h
      · simp only [hf, Bool.false_eq_true, if_false] at hres
        cases hkt : keyTransform k with
        | error e2 =>
            rw [hkt] at hres
            simp only [Prod.mk.injEq] at hres
            rw [← hres.1]; exact h
        | ok t =>
            rw [hkt] at hres
            by_cases hm : isRealModifier n.modifier
            · simp only [hm, if_true, Prod.mk.injEq] at hres
              rw [← hres.1]; exact h
            · simp only [hm, Bool.false_eq_true, if_false] at hres
              by_cases hmeta : t ∈ metaKeys
              · simp only [hmeta, if_true, Prod.mk.injEq] at hres
                rw [← hres.1]; exact h
              · simp only [hmeta, if_false] at hres
                by_cases hk : n.data.hasKey t
                · simp only [hk, if_true, Prod.mk.injEq] at hres
                  rw [← hres.1]; exact h
                · simp only [hk, Bool.false_eq_true, if_false] at hres
                  cases v with
                  | scalar v =>
                      simp only [Prod.mk.injEq] at hres
                      rw [← hres.1]
                      cases n with
                      | mk d o s m fz =>
                          simp only [Node.data_mk, Node.order_mk,
                            Node.sections_mk, Node.modifier_mk,
                            Node.frozen_mk] at *
                          obtain ⟨hloc, hnd, hns, hall⟩ := secInv_fields h
                          have hmem : t ∉ d.keys := by
                            rw [← hasKey_mem_keys]
                            simp [hk]
                          refine secInv_build ?_ ?_ hns
                            (itemsAll_snoc hall rfl)
                          · unfold secLocal at hloc ⊢
                            simp only [Node.sections_mk, Node.data_mk] at *
                            rw [List.all_eq_true] at hloc ⊢
                            intro q hq
                            have := hloc q hq
                            rw [lookup_snoc]
                            cases hl2 : d.lookup q with
                            | none => rw [hl2] at this; simp at this
                            | some x => rw [hl2] at this; simpa [hl2] using this
                          · rw [keys_snoc]
                            simp [List.Nodup, List.pairwise_append]
                            refine ⟨hnd, fun q hq hqt => ?_⟩
                            subst hqt
                            exact hmem hq
                  | pydict entries =>
                      rcases hadd : add_section n (.strKey t) none with ⟨n1, e1⟩
                      rw [hadd] at hres
                      have hn1 : secInv n1 = true := by
                        have h2 := secInv_add_section n (.strKey t) none h
                        rw [hadd] at h2
                        exact h2
                      cases e1 with
                      | some e2 =>
                          simp only [Prod.mk.injEq] at hres
                          rw [← hres.1]; exact hn1
                      | none =>
                          obtain ⟨hshape, -, -, -, -⟩ :=
                            add_section_success (y := .strKey t)
                              (keyTransform_idem hkt) hadd
                          have hchild : secInv
                              (setDictEntries (emptyNode none) entries).1 = true :=
                            secInv_setDict (emptyNode none) entries rfl
                          simp only [Prod.mk.injEq] at hres
                          rw [← hres.1]
                          refine secInv_replace_sec (c := emptyNode none) hn1 ?_ hchild
                          rw [hshape]
                          simp only [Node.data_mk]
                          rw [lookup_snoc]
                          have hlookt : n.data.lookup t = none := by
                            cases hl2 : n.data.lookup t with
                            | none => rfl
                            | some x => simp [Items.hasKey, hl2] at hk
                          rw [hlookt]
                          simp
                  | pylist elems =>
                      rcases hadd : add_section n (.strKey t) none with ⟨n1, e1⟩
                      rw [hadd] at hres
                      have hn1 : secInv n1 = true := by
                        have h2 := secInv_add_section n (.strKey t) none h
                        rw [hadd] at h2
                        exact h2
                      cases e1 with
                      | some e2 =>
                          simp only [Prod.mk.injEq] at hres
                          rw [← hres.1]; exact hn1
                      | none =>
                          obtain ⟨hshape, -, -, -, -⟩ :=
                            add_section_success (y := .strKey t)
                              (keyTransform_idem hkt) hadd
                          have hchild : secInv
                              (setListEntries (emptyNode none) 0 elems).1 = true :=
                            secInv_setList (emptyNode none) 0 elems rfl
                          simp only [Prod.mk.injEq] at hres
                          rw [← hres.1]
                          refine secInv_replace_sec (c := emptyNode none) hn1 ?_ hchild
                          rw [hshape]
                          simp only [Node.data_mk]
                          rw [lookup_snoc]
                          have hlookt : n.data.lookup t = none := by
                            cases hl2 : n.data.lookup t with
                            | none => rfl
                            | some x => simp [Items.hasKey, hl2] at hk
                          rw [hlookt]
                          simp
theorem secInv_setDict : ∀ (c : Node) (entries : PyDict),
    secInv c = true → secInv (setDictEntries c entries).1 = true
  | c, .nil, h => h
  | c, .cons k v rest, h => by
      unfold setDictEntries
      rcases hsv : set_value c (.strKey k) v with ⟨c1, e⟩
      have hc1 : secInv c1 = true := by
        have h2 := secInv_set_value c (.strKey k) v h
        rw [hsv] at h2
        exact h2
      cases e with
      | some e2 => exact hc1
      | none => exact secInv_setDict c1 rest hc1
theorem secInv_setList : ∀ (c : Node) (i : Int) (l : PyList),
    secInv c = true → secInv (setListEntries c i l).1 = true
  | c, i, .nil, h => h
  | c, i, .cons v rest, h => by
      unfold setListEntries
      rcases hsv : set_value c (.intKey i) v with ⟨c1, e⟩
      have hc1 : secInv c1 = true := by
        have h2 := secInv_set_value c (.intKey i) v h
        rw [hsv] at h2
        exact h2
      cases e with
      | some e2 => exact hc1
      | none => exact secInv_setList c1 (i + 1) rest hc1
end

/-- `secInv` after the body of `__delitem__`. -/
theorem secInv_delitem (n : Node) (k : PyKey) (h : secInv n = true) :
    secInv (delitemStmt n k).1 = true := by
  unfold delitemStmt
  cases hkt : keyTransform k with
  | error e => exact h
  | ok t =>
      by_cases hk : n.data.hasKey t
      · simp only [hk, if_true]
        cases n with
        | mk d o s m fz =>
            simp only [Node.data_mk, Node.order_mk, Node.sections_mk,
              Node.modifier_mk, Node.frozen_mk] at *
            obtain ⟨hloc, hnd, hns, hall⟩ := secInv_fields h
            refine secInv_build ?_ ?_ ?_ (itemsAll_erase hall)
            · unfold secLocal at hloc ⊢
              simp only [Node.sections_mk, Node.data_mk] at *
              rw [List.all_eq_true] at hloc ⊢
              intro q hq
              have hqs : q ∈ s ∧ q ≠ t := by
                by_cases hts : t ∈ s
                · simp only [hts, if_true] at hq
                  have := (List.Nodup.mem_erase_iff hns).mp hq
                  exact ⟨this.2, this.1⟩
                · simp only [hts, if_false] at hq
                  exact ⟨hq, fun hh => hts (hh ▸ hq)⟩
              rw [lookup_erase_ne d t q (fun hh => hqs.2 hh.symm)]
              exact hloc q hqs.1
            · rw [keys_erase]
              exact hnd.erase t
            · by_cases hts : t ∈ s
              · simp only [hts, if_true]
                exact hns.erase t
              · simpa [hts] using hns
      · simp only [hk, Bool.false_eq_true, if_false]
        exact h

theorem secInv_add_comment (n : Node) (c : String) (h : secInv n = true) :
    secInv (add_comment n c).1 = true := by
  unfold add_comment
  by_cases hf : n.frozen
  · simpa [hf] using h
  · simp only [hf, Bool.false_eq_true, if_false]
    cases n with
    | mk d o s m fz =>
        obtain ⟨hloc, hnd, hns, hall⟩ := secInv_fields h
        exact secInv_build (by simpa [secLocal] using hloc) hnd hns hall

/-- Trees built by the public mutation contract, with any operation applied
to the node at any path (`set_modifier` and `clear` excluded — the C6
counterexample shows they break the invariant). -/
inductive Reach : Node → Prop where
  | root : Reach (emptyNode none)
  | setv (r : Node) (p : List String) (k : PyKey) (v : PyVal) :
      Reach r → Reach (applyAt r p (fun n => set_value n k v)).1
  | adds (r : Node) (p : List String) (k : PyKey) (st : Option String) :
      Reach r → Reach (applyAt r p (fun n => add_section n k st)).1
  | deli (r : Node) (p : List String) (k : PyKey) :
      Reach r → Reach (applyAt r p (fun n => delitemStmt n k)).1
  | addc (r : Node) (p : List String) (c : String) :
      Reach r → Reach (applyAt r p (fun n => add_comment n c)).1

/-- C6 amended: for every tree reachable through `set_value`,
`add_section`, delete and `add_comment` (applied anywhere, succeeding or
failing), every node's `__sections__` members map in `__data__` to child
nodes (in particular `sections ⊆ data` keys; in this path model a child
stored in a node's data is owned by that node by construction).
`set_modifier` and `clear` break the invariant, see `C6_counterexample`. -/
theorem C6_sections_invariant_amended (r : Node) (h : Reach r) :
    secOk r = true := by
  have hinv : secInv r = true := by
    induction h with
    | root => rfl
    | setv r p k v hr ih =>
        exact nodeAll_applyAt secInvLocal_replStable _
          (fun n hn => secInv_set_value n k v hn) p r ih
    | adds r p k st hr ih =>
        exact nodeAll_applyAt secInvLocal_replStable _
          (fun n hn => secInv_add_section n k st hn) p r ih
    | deli r p k hr ih =>
        exact nodeAll_applyAt secInvLocal_replStable _
          (fun n hn => secInv_delitem n k hn) p r ih
    | addc r p c hr ih =>
        exact nodeAll_applyAt secInvLocal_replStable _
          (fun n hn => secInv_add_comment n c hn) p r ih
  exact secInv_imp_secOk hinv

/-- Witness for the amended C6: a small mutation sequence (section, value,
nested value, delete). -/
theorem C6_sections_invariant_witness :
    secOk (applyAt (applyAt (applyAt (emptyNode none) []
        (fun n => add_section n (.strKey "s") none)).1 ["s"]
        (fun n => set_value n (.strKey "a") (.scalar (.vint 1)))).1 []
        (fun n => delitemStmt n (.strKey "missing"))).1 = true :=
  C6_sections_invariant_amended _
    (Reach.deli _ [] (.strKey "missing")
      (Reach.setv _ ["s"] (.strKey "a") (.scalar (.vint 1))
        (Reach.adds _ [] (.strKey "s") none Reach.root)))

/-! ## C1 development: character classes -/

theorem char_isUpper_range {c : Char} (h : c.isUpper = true) :
    65 ≤ c.toNat ∧ c.toNat ≤ 90 := by
  unfold Char.isUpper at h
  rw [Bool.and_eq_true, decide_eq_true_eq, decide_eq_true_eq] at h
  obtain ⟨h1, h2⟩ := h
  rw [ge_iff_le, UInt32.le_def, BitVec.le_def] at h1
  rw [UInt32.le_def, BitVec.le_def] at h2
  exact ⟨h1, h2⟩

theorem char_isLower_range {c : Char} (h : c.isLower = true) :
    97 ≤ c.toNat ∧ c.toNat ≤ 122 := by
  unfold Char.isLower at h
  rw [Bool.and_eq_true, decide_eq_true_eq, decide_eq_true_eq] at h
  obtain ⟨h1, h2⟩ := h
  rw [ge_iff_le, UInt32.le_def, BitVec.le_def] at h1
  rw [UInt32.le_def, BitVec.le_def] at h2
  exact ⟨h1, h2⟩

theorem char_isDigit_range {c : Char} (h : c.isDigit = true) :
    48 ≤ c.toNat ∧ c.toNat ≤ 57 := by
  unfold Char.isDigit at h
  rw [Bool.and_eq_true, decide_eq_true_eq, decide_eq_true_eq] at h
  obtain ⟨h1, h2⟩ := h
  rw [ge_iff_le, UInt32.le_def, BitVec.le_def] at h1
  rw [UInt32.le_def, BitVec.le_def] at h2
  exact ⟨h1, h2⟩

theorem nameStart_not_digit {c : Char} (h : isNameStart c = true) :
    c.isDigit = false := by
  by_contra hd
  rw [Bool.not_eq_false] at hd
  obtain ⟨hd1, hd2⟩ := char_isDigit_range hd
  rw [isNameStart, decide_eq_true_eq] at h
  rcases h with h | h
  · rw [Char.isAlpha, Bool.or_eq_true] at h
    rcases h with h | h
    · obtain ⟨a, b⟩ := char_isUpper_range h; omega
    · obtain ⟨a, b⟩ := char_isLower_range h; omega
  · subst h; simp at hd

theorem nameStart_ne_space {c : Char} (h : isNameStart c = true) : c ≠ ' ' := by
  intro he; subst he; exact absurd h (by decide)

theorem nameStart_not_pySpace {c : Char} (h : isNameStart c = true) :
    isPySpace c = false := by
  by_contra hs
  rw [Bool.not_eq_false, isPySpace, decide_eq_true_eq] at hs
  rcases hs with hs | hs | hs | hs | hs | hs <;> (subst hs; exact absurd h (by decide))

theorem nameChar_ne_space {c : Char} (h : isNameChar c = true) : c ≠ ' ' := by
  intro he; subst he; exact absurd h (by decide)

theorem nameChar_ne_colon {c : Char} (h : isNameChar c = true) : c ≠ ':' := by
  intro he; subst he; exact absurd h (by decide)

theorem nameChar_ne_eqsign {c : Char} (h : isNameChar c = true) : c ≠ '=' := by
  intro he; subst he; exact absurd h (by decide)

/-! ## C1 development: scanning helpers -/

theorem takeWhile_append_sat {p : Char → Bool} :
    ∀ {l1 : List Char} (l2 : List Char), (∀ c ∈ l1, p c = true) →
      (l1 ++ l2).takeWhile p = l1 ++ l2.takeWhile p
  | [], l2, _ => rfl
  | c :: l1, l2, h => by
      have hc : p c = true := h c (List.mem_cons_self c l1)
      simp only [List.cons_append, List.takeWhile_cons_of_pos hc]
      rw [takeWhile_append_sat l2 (fun x hx => h x (List.mem_cons_of_mem c hx))]

theorem dropWhile_append_sat {p : Char → Bool} :
    ∀ {l1 : List Char} (l2 : List Char), (∀ c ∈ l1, p c = true) →
      (l1 ++ l2).dropWhile p = l2.dropWhile p
  | [], l2, _ => rfl
  | c :: l1, l2, h => by
      have hc : p c = true := h c (List.mem_cons_self c l1)
      simp only [List.cons_append, List.dropWhile_cons_of_pos hc]
      exact dropWhile_append_sat l2 (fun x hx => h x (List.mem_cons_of_mem c hx))

theorem takeWhile_all {p : Char → Bool} :
    ∀ {l : List Char}, (∀ c ∈ l, p c = true) → l.takeWhile p = l
  | [], _ => rfl
  | c :: l, h => by
      have hc : p c = true := h c (List.mem_cons_self c l)
      simp only [List.takeWhile_cons_of_pos hc]
      rw [takeWhile_all (fun x hx => h x (List.mem_cons_of_mem c hx))]

theorem string_mk_data (s : String) : String.mk s.data = s := by cases s; rfl

/-- The facts `stableVal` packs about a scalar's text form. -/
theorem stableVal_spec {v : Val} (h : stableVal v = true) :
    convertFromString v.toText = .ok v ∧
      isPySpace (v.toText.data.headD ' ') = false := by
  unfold stableVal at h
  simp only [Bool.and_eq_true] at h
  obtain ⟨⟨⟨hconv, hne⟩, hhead⟩, -⟩ := h
  constructor
  · cases hc : convertFromString v.toText with
    | error e => rw [hc] at hconv; simp at hconv
    | ok v2 =>
        rw [hc] at hconv
        simp only [decide_eq_true_eq] at hconv
        rw [hconv]
  · cases hd : v.toText.data with
    | nil => rw [hd] at hne; simp at hne
    | cons c rest =>
        rw [hd] at hhead
        simpa using hhead

/-! ## C1 development: classification of writer lines -/

/-- The identifier facts `isIdentKey` packs. -/
theorem isIdentKey_spec {k : String} (h : isIdentKey k = true) :
    (∃ c rest, k.data = c :: rest ∧ isNameStart c = true) ∧
      (∀ c ∈ k.data, isNameChar c = true) ∧ pyLowerRepl k = k := by
  unfold isIdentKey at h
  cases hd : k.data with
  | nil => rw [hd] at h; simp at h
  | cons c rest =>
      rw [hd] at h
      simp only [Bool.and_eq_true, decide_eq_true_eq, List.all_eq_true] at h
      obtain ⟨⟨h1, h2⟩, h3⟩ := h
      exact ⟨⟨c, rest, rfl, h1⟩, h2, h3⟩

theorem keyTransformStr_of_ident {k : String} (h : isIdentKey k = true) :
    keyTransformStr k = .ok k := by
  obtain ⟨⟨c, rest, hd, hstart⟩, -, hrepl⟩ := isIdentKey_spec h
  unfold keyTransformStr
  rw [hrepl, hd]
  simp [nameStart_not_digit hstart]

theorem classify_value_line (lvl : Nat) {k : String} {v : Val}
    (hk : isIdentKey k = true) (hv : stableVal v = true) :
    classifyLine (indentStr lvl ++ k ++ " = " ++ v.toText) =
      .ok (.dataLine (lvl * 4) k (.valueAssign v.toText)) := by
  obtain ⟨⟨c, ck, hd, hstart⟩, hall, -⟩ := isIdentKey_spec hk
  obtain ⟨-, hhead⟩ := stableVal_spec hv
  cases hs : v.toText.data with
  | nil => rw [hs] at hhead; simp [isPySpace] at hhead
  | cons c0 srest =>
  rw [hs] at hhead
  simp only [List.headD_cons] at hhead
  have hallc : ∀ x ∈ c :: ck, isNameChar x = true := by
    intro x hx; exact hall x (hd ▸ hx)
  have hdata : (indentStr lvl ++ k ++ " = " ++ v.toText).data =
      List.replicate (lvl * 4) ' ' ++
        ((c :: ck) ++ (' ' :: '=' :: ' ' :: c0 :: srest)) := by
    simp [String.data_append, indentStr, hd, hs, List.append_assoc]
  have hsp : ∀ x ∈ List.replicate (lvl * 4) ' ', (decide (x = ' ')) = true := by
    intro x hx
    rw [List.eq_of_mem_replicate hx]
    simp
  have h1 : List.takeWhile (fun x => decide (x = ' '))
      (c :: (ck ++ (' ' :: '=' :: ' ' :: c0 :: srest))) = [] :=
    List.takeWhile_cons_of_neg (by simp [nameStart_ne_space hstart])
  have h2 : List.dropWhile (fun x => decide (x = ' '))
      (c :: (ck ++ (' ' :: '=' :: ' ' :: c0 :: srest))) = c :: (ck ++ (' ' :: '=' :: ' ' :: c0 :: srest)) :=
    List.dropWhile_cons_of_neg (by simp [nameStart_ne_space hstart])
  have h3 : List.takeWhile isNameChar (c :: (ck ++ (' ' :: '=' :: ' ' :: c0 :: srest)))
      = c :: ck := by
    rw [show c :: (ck ++ (' ' :: '=' :: ' ' :: c0 :: srest)) =
        (c :: ck) ++ (' ' :: '=' :: ' ' :: c0 :: srest) from by simp,
      takeWhile_append_sat _ hallc,
      List.takeWhile_cons_of_neg (by decide), List.append_nil]
  have h4 : List.dropWhile isNameChar (c :: (ck ++ (' ' :: '=' :: ' ' :: c0 :: srest)))
      = ' ' :: '=' :: ' ' :: c0 :: srest := by
    rw [show c :: (ck ++ (' ' :: '=' :: ' ' :: c0 :: srest)) =
        (c :: ck) ++ (' ' :: '=' :: ' ' :: c0 :: srest) from by simp,
      dropWhile_append_sat _ hallc,
      List.dropWhile_cons_of_neg (by decide)]
  have h5 : List.dropWhile isPySpace (' ' :: '=' :: ' ' :: c0 :: srest)
      = '=' :: ' ' :: c0 :: srest := by
    rw [List.dropWhile_cons_of_pos (by decide),
      List.dropWhile_cons_of_neg (by decide)]
  have h6 : List.dropWhile isPySpace (' ' :: c0 :: srest) = c0 :: srest := by
    rw [List.dropWhile_cons_of_pos (by decide),
      List.dropWhile_cons_of_neg (by simpa using hhead)]
  have hmkk : String.mk (c :: ck) = k := by rw [← hd]
  have hmkv : String.mk (c0 :: srest) = v.toText := by rw [← hs]
  unfold classifyLine dataShape
  rw [hdata]
  simp [h1, h2, h3, h4, h5, h6, hstart, hmkk, hmkv]

theorem classify_header_line {lvl : Nat} {k : String}
    (hk : isIdentKey k = true) :
    classifyLine (indentStr lvl ++ (k ++ ":")) =
      .ok (.dataLine (lvl * 4) k (.sectionOpen none)) := by
  obtain ⟨⟨c, ck, hd, hstart⟩, hall, -⟩ := isIdentKey_spec hk
  have hallc : ∀ x ∈ c :: ck, isNameChar x = true := by
    intro x hx; exact hall x (hd ▸ hx)
  have hdata : (indentStr lvl ++ (k ++ ":")).data =
      List.replicate (lvl * 4) ' ' ++ ((c :: ck) ++ [':']) := by
    simp [String.data_append, indentStr, hd, List.append_assoc]
  have hsp : ∀ x ∈ List.replicate (lvl * 4) ' ', (decide (x = ' ')) = true := by
    intro x hx
    rw [List.eq_of_mem_replicate hx]
    simp
  have h1 : List.takeWhile (fun x => decide (x = ' '))
      (c :: (ck ++ [':'])) = [] :=
    List.takeWhile_cons_of_neg (by simp [nameStart_ne_space hstart])
  have h2 : List.dropWhile (fun x => decide (x = ' '))
      (c :: (ck ++ [':'])) = c :: (ck ++ [':']) :=
    List.dropWhile_cons_of_neg (by simp [nameStart_ne_space hstart])
  have h3 : List.takeWhile isNameChar (c :: (ck ++ [':'])) = c :: ck := by
    rw [show c :: (ck ++ [':']) = (c :: ck) ++ [':'] from by simp,
      takeWhile_append_sat _ hallc,
      List.takeWhile_cons_of_neg (by decide), List.append_nil]
  have h4 : List.dropWhile isNameChar (c :: (ck ++ [':'])) = [':'] := by
    rw [show c :: (ck ++ [':']) = (c :: ck) ++ [':'] from by simp,
      dropWhile_append_sat _ hallc,
      List.dropWhile_cons_of_neg (by decide)]
  have h5 : List.dropWhile isPySpace [':'] = [':'] := by
    rw [List.dropWhile_cons_of_neg (by decide)]
  have hmkk : String.mk (c :: ck) = k := by rw [← hd]
  unfold classifyLine dataShape
  rw [hdata]
  simp [h1, h2, h3, h4, h5, hstart, hmkk]

theorem classify_header_enc_line {lvl : Nat} {k enc : String}
    (hk : isIdentKey k = true) (he : identName enc = true) :
    classifyLine (indentStr lvl ++ (k ++ ": " ++ enc)) =
      .ok (.dataLine (lvl * 4) k (.sectionOpen (some enc))) := by
  obtain ⟨⟨c, ck, hd, hstart⟩, hall, -⟩ := isIdentKey_spec hk
  have hespec : (∃ e0 er, enc.data = e0 :: er ∧ isNameStart e0 = true) ∧
      (∀ x ∈ enc.data, isNameChar x = true) := by
    unfold identName at he
    cases hde : enc.data with
    | nil => rw [hde] at he; simp at he
    | cons e0 er =>
        rw [hde] at he
        simp only [Bool.and_eq_true, List.all_eq_true] at he
        exact ⟨⟨e0, er, rfl, he.1⟩, he.2⟩
  obtain ⟨⟨e0, er, hde, hestart⟩, healln⟩ := hespec
  have hallc : ∀ x ∈ c :: ck, isNameChar x = true := by
    intro x hx; exact hall x (hd ▸ hx)
  have heall2 : ∀ x ∈ e0 :: er, isNameChar x = true := by
    intro x hx; exact healln x (hde ▸ hx)
  have hdata : (indentStr lvl ++ (k ++ ": " ++ enc)).data =
      List.replicate (lvl * 4) ' ' ++ ((c :: ck) ++ (':' :: ' ' :: e0 :: er)) := by
    simp [String.data_append, indentStr, hd, hde, List.append_assoc]
  have hsp : ∀ x ∈ List.replicate (lvl * 4) ' ', (decide (x = ' ')) = true := by
    intro x hx
    rw [List.eq_of_mem_replicate hx]
    simp
  have h1 : List.takeWhile (fun x => decide (x = ' '))
      (c :: (ck ++ (':' :: ' ' :: e0 :: er))) = [] :=
    List.takeWhile_cons_of_neg (by simp [nameStart_ne_space hstart])
  have h2 : List.dropWhile (fun x => decide (x = ' '))
      (c :: (ck ++ (':' :: ' ' :: e0 :: er))) = c :: (ck ++ (':' :: ' ' :: e0 :: er)) :=
    List.dropWhile_cons_of_neg (by simp [nameStart_ne_space hstart])
  have h3 : List.takeWhile isNameChar (c :: (ck ++ (':' :: ' ' :: e0 :: er)))
      = c :: ck := by
    rw [show c :: (ck ++ (':' :: ' ' :: e0 :: er)) =
        (c :: ck) ++ (':' :: ' ' :: e0 :: er) from by simp,
      takeWhile_append_sat _ hallc,
      List.takeWhile_cons_of_neg (by decide), List.append_nil]
  have h4 : List.dropWhile isNameChar (c :: (ck ++ (':' :: ' ' :: e0 :: er)))
      = ':' :: ' ' :: e0 :: er := by
    rw [show c :: (ck ++ (':' :: ' ' :: e0 :: er)) =
        (c :: ck) ++ (':' :: ' ' :: e0 :: er) from by simp,
      dropWhile_append_sat _ hallc,
      List.dropWhile_cons_of_neg (by decide)]
  have h5 : List.dropWhile isPySpace (':' :: ' ' :: e0 :: er)
      = ':' :: ' ' :: e0 :: er := by
    rw [List.dropWhile_cons_of_neg (by decide)]
  have h6 : List.dropWhile isPySpace (' ' :: e0 :: er) = e0 :: er := by
    rw [List.dropWhile_cons_of_pos (by decide),
      List.dropWhile_cons_of_neg (by simp [nameStart_not_pySpace hestart])]
  have h7 : List.takeWhile isNameChar (e0 :: er) = e0 :: er := takeWhile_all heall2
  have hmkk : String.mk (c :: ck) = k := by rw [← hd]
  have hmke : String.mk (e0 :: er) = enc := by rw [← hde]
  unfold classifyLine dataShape
  rw [hdata]
  simp [h1, h2, h3, h4, h5, h6, h7, hstart, hestart, hmkk, hmke]

/-! ## C1 development: forward characterizations of the mutators -/

theorem set_value_scalar_eq {n : Node} {y : PyKey} {t : String} (v : Val)
    (ht : keyTransform y = .ok t) (hf : n.frozen = false)
    (hm : isRealModifier n.modifier = false) (hmeta : t ∉ metaKeys)
    (hk : n.data.hasKey t = false) :
    set_value n y (.scalar v) =
      (.mk (n.data.snoc t (.val v)) (n.order ++ [.okey t]) n.sections n.modifier false,
        none) := by
  unfold set_value
  simp [ht, hf, hm, hmeta, hk]

theorem add_section_eq {n : Node} {y : PyKey} {z : Option String} {t : String}
    (ht : keyTransform y = .ok t) (hf : n.frozen = false) (hmeta : t ∉ metaKeys)
    (hsec : t ∉ n.sections) (hk : n.data.hasKey t = false) :
    add_section n y z =
      (.mk (n.data.snoc t (.sec (emptyNode z))) (n.order ++ [.okey t])
        (n.sections ++ [t]) n.modifier false, none) := by
  unfold add_section
  simp [ht, hf, hmeta, hsec, hk, keyTransform_idem ht]

/-! ## C1 development: parser-state lemmas -/

theorem popTo_skip {i : Nat} {q : List String} {rest : List (Nat × List String)} :
    ∀ {ext : List (Nat × List String)}, (∀ e ∈ ext, i < e.1) →
      popTo i (ext ++ (i, q) :: rest) = .ok ((i, q) :: rest)
  | [], _ => by simp [popTo]
  | (j, r) :: ext, h => by
      have hj : i < j := h (j, r) (List.mem_cons_self _ _)
      have hne : j ≠ i := by omega
      simp only [List.cons_append, popTo, hne, if_false]
      exact popTo_skip (fun e he => h e (List.mem_cons_of_mem _ he))

theorem entry_updateIndent {i : Nat} {p : List String} {base : List (Nat × List String)}
    {st : PState} (h : EntrySt i p base st) :
    updateIndent i st = .ok ⟨st.root, (i, p) :: base, none⟩ := by
  rcases h with ⟨ext, hstk, hext⟩ | ⟨hpend, hstk, j, q, base2, hbase, hj⟩
  · cases ext with
    | nil =>
        simp only [List.nil_append] at hstk
        unfold updateIndent
        rw [hstk]
        simp [popTo]
    | cons e ext =>
        obtain ⟨j, q⟩ := e
        have hj : i < j := hext (j, q) (List.mem_cons_self _ _)
        have hnlt : ¬ j < i := by omega
        have hne : j ≠ i := by omega
        have hpop : popTo i ((j, q) :: (ext ++ (i, p) :: base)) = .ok ((i, p) :: base) := by
          simp only [popTo, hne, if_false]
          exact popTo_skip (fun e he => hext e (List.mem_cons_of_mem _ he))
        unfold updateIndent
        rw [hstk]
        simp only [List.cons_append] at hpop ⊢
        simp [hnlt, hpop]
  · unfold updateIndent
    rw [hstk, hbase]
    have hpop : popTo i ((i, p) :: (j, q) :: base2) = .ok ((i, p) :: (j, q) :: base2) := by
      simp [popTo]
    simp [hj, hpend, hpop, hbase]

theorem entry_child_to_parent {i i2 : Nat} {p q : List String}
    {base : List (Nat × List String)} {st : PState}
    (h : EntrySt i2 q ((i, p) :: base) st) (hlt : i < i2) :
    EntrySt i p base st := by
  rcases h with ⟨ext, hstk, hext⟩ | ⟨hpend, hstk, j, r, base2, hbase, hj⟩
  · left
    refine ⟨ext ++ [(i2, q)], ?_, ?_⟩
    · rw [hstk, List.append_assoc]
      rfl
    · intro e he
      rcases List.mem_append.mp he with he | he
      · exact lt_trans hlt (hext e he)
      · rw [List.mem_singleton.mp he]
        exact hlt
  · left
    exact ⟨[], by rw [hstk, List.nil_append], by simp⟩

theorem parseLines_cons_ok {st st1 : PState} {l : String} {ls : List String}
    (h : parseLine st l = .ok st1) : parseLines (l :: ls) st = parseLines ls st1 := by
  simp [parseLines, h]

/-! ## C1 development: association-list lemmas -/

theorem lookup_none_of_hasKey_false {d : Items} {k : String} (h : d.hasKey k = false) :
    d.lookup k = none := by
  cases hl : d.lookup k with
  | none => rfl
  | some x => rw [Items.hasKey, hl] at h; simp at h

theorem replace_replace : ∀ (d : Items) (k : String) (it1 it2 : Item),
    (d.replace k it1).replace k it2 = d.replace k it2
  | .nil, _, _, _ => rfl
  | .cons k0 it0 rest, k, it1, it2 => by
      by_cases h : k0 = k
      · subst h
        simp [Items.replace]
      · simp [Items.replace, h, replace_replace rest k it1 it2]

theorem replace_lookup_self : ∀ {d : Items} {k : String} {it : Item},
    d.lookup k = some it → d.replace k it = d
  | .nil, k, it, h => by simp [Items.lookup] at h
  | .cons k0 it0 rest, k, it, h => by
      by_cases hk : k0 = k
      · subst hk
        simp only [Items.lookup, if_pos rfl] at h
        simp at h
        simp [Items.replace, h]
      · simp only [Items.lookup, hk, if_false] at h
        simp [Items.replace, hk, replace_lookup_self h]

theorem replace_snoc_fresh {k : String} (it1 it2 : Item) :
    ∀ {d : Items}, d.hasKey k = false → (d.snoc k it1).replace k it2 = d.snoc k it2
  | .nil, _ => by simp [Items.snoc, Items.replace]
  | .cons k0 it0 rest, h => by
      have hk : k0 ≠ k := by
        intro he
        subst he
        rw [Items.hasKey, Items.lookup, if_pos rfl] at h
        simp at h
      have hrest : rest.hasKey k = false := by
        rw [Items.hasKey, Items.lookup, if_neg hk] at h
        exact h
      simp [Items.snoc, Items.replace, hk, replace_snoc_fresh it1 it2 hrest]

theorem catItems_nil : ∀ d : Items, catItems d .nil = d
  | .nil => rfl
  | .cons k it rest => by simp [catItems, catItems_nil rest]

theorem catItems_snoc : ∀ (d : Items) (k : String) (it : Item) (e : Items),
    catItems (d.snoc k it) e = catItems d (.cons k it e)
  | .nil, _, _, _ => rfl
  | .cons k0 it0 rest, k, it, e => by
      simp [Items.snoc, catItems, catItems_snoc rest k it e]

theorem items_eq_nil_of_keys {d : Items} (h : d.keys = []) : d = .nil := by
  cases d with
  | nil => rfl
  | cons k it rest => simp [Items.keys] at h

/-! ## C1 development: live entries of the order list -/

theorem liveKeys_mem_keys : ∀ {os : List OEnt} {d : Items} {k : String},
    k ∈ liveKeys d os → k ∈ d.keys
  | [], _, _, h => by simp [liveKeys] at h
  | .okey q :: os, d, k, h => by
      by_cases hq : d.hasKey q
      · rw [liveKeys, if_pos hq] at h
        rcases List.mem_cons.mp h with rfl | h
        · exact (hasKey_mem_keys d k).mp hq
        · exact liveKeys_mem_keys h
      · rw [liveKeys, if_neg hq] at h
        exact liveKeys_mem_keys h
  | .ocomment c :: os, d, k, h => liveKeys_mem_keys (by rw [liveKeys] at h; exact h)

theorem okey_mem_liveKeys : ∀ {os : List OEnt} {d : Items} {k : String},
    OEnt.okey k ∈ os → d.hasKey k = true → k ∈ liveKeys d os
  | [], _, _, h, _ => by simp at h
  | e :: os, d, k, h, hk => by
      rcases List.mem_cons.mp h with he | he
      · rw [← he, liveKeys, if_pos hk]
        exact List.mem_cons_self _ _
      · cases e with
        | okey q =>
            by_cases hq : d.hasKey q
            · rw [liveKeys, if_pos hq]
              exact List.mem_cons_of_mem _ (okey_mem_liveKeys he hk)
            · rw [liveKeys, if_neg hq]
              exact okey_mem_liveKeys he hk
        | ocomment c =>
            rw [liveKeys]
            exact okey_mem_liveKeys he hk

theorem live_cons_notin : ∀ {l : List OEnt} {k : String} {i : Item} {r : Items},
    OEnt.okey k ∉ l →
      liveKeys (.cons k i r) l = liveKeys r l ∧
      liveItems (.cons k i r) l = liveItems r l
  | [], _, _, _, _ => ⟨rfl, rfl⟩
  | .okey q :: os, k, it, rest, h => by
      have hq : q ≠ k := by
        intro he
        exact h (by rw [he]; exact List.mem_cons_self _ _)
      have hkq : k ≠ q := fun he => hq he.symm
      have htail : OEnt.okey k ∉ os := fun hm => h (List.mem_cons_of_mem _ hm)
      have hlk : (Items.cons k it rest).lookup q = rest.lookup q := by
        simp [Items.lookup, hkq]
      have hhk : (Items.cons k it rest).hasKey q = rest.hasKey q := by
        simp [Items.hasKey, hlk]
      obtain ⟨ih1, ih2⟩ := live_cons_notin (l := os) (k := k) (i := it) (r := rest) htail
      constructor
      · rw [liveKeys, liveKeys, hhk, ih1]
      · rw [liveItems, liveItems, hlk, ih2]
  | .ocomment c :: os, k, it, rest, h => by
      have htail : OEnt.okey k ∉ os := fun hm => h (List.mem_cons_of_mem _ hm)
      obtain ⟨ih1, ih2⟩ := live_cons_notin (l := os) (k := k) (i := it) (r := rest) htail
      exact ⟨by rw [liveKeys, liveKeys, ih1], by rw [liveItems, liveItems, ih2]⟩

theorem liveItems_eq_self : ∀ {os : List OEnt} {d : Items},
    liveKeys d os = d.keys → d.keys.Nodup → liveItems d os = d
  | [], d, h, _ => by
      have hd : d = .nil := items_eq_nil_of_keys (by rw [← h]; rfl)
      rw [hd]
      rfl
  | .okey q :: os, d, h, hnd => by
      by_cases hq : d.hasKey q
      · rw [liveKeys, if_pos hq] at h
        cases d with
        | nil => rw [Items.hasKey, Items.lookup] at hq; simp at hq
        | cons k0 it0 rest =>
            rw [Items.keys] at h
            have hk0 : q = k0 := by
              have := congrArg (fun l => l.headD "") h
              simpa using this
            subst hk0
            have htl : liveKeys (Items.cons q it0 rest) os = rest.keys := by
              have := congrArg (fun l => l.tail) h
              simpa using this
            rw [Items.keys] at hnd
            have hnotin : q ∉ rest.keys := (List.nodup_cons.mp hnd).1
            have hndr : rest.keys.Nodup := (List.nodup_cons.mp hnd).2
            have hnos : OEnt.okey q ∉ os := by
              intro hm
              have : q ∈ liveKeys (Items.cons q it0 rest) os :=
                okey_mem_liveKeys hm hq
              rw [htl] at this
              exact hnotin this
            obtain ⟨hl1, hl2⟩ := live_cons_notin (k := q) (i := it0) (r := rest) hnos
            rw [liveItems]
            have hlq : (Items.cons q it0 rest).lookup q = some it0 := by
              simp [Items.lookup]
            rw [hlq]
            rw [hl2, liveItems_eq_self (by rw [← hl1]; exact htl) hndr]
      · rw [liveKeys, if_neg hq] at h
        rw [liveItems, lookup_none_of_hasKey_false (by simpa using hq)]
        exact liveItems_eq_self h hnd
  | .ocomment c :: os, d, h, hnd => by
      rw [liveKeys] at h
      rw [liveItems]
      exact liveItems_eq_self h hnd

/-! ## C1 development: path lemmas -/

theorem nodeAt_setAt : ∀ {p : List String} {r n m : Node},
    nodeAt r p = some n → nodeAt (setAt r p m) p = some m
  | [], _, _, _, _ => rfl
  | k :: ps, r, n, m, h => by
      cases hl : r.data.lookup k with
      | none => simp [nodeAt, hl] at h
      | some it =>
          cases it with
          | val v => simp [nodeAt, hl] at h
          | sec c =>
              simp only [nodeAt, hl] at h
              have hrep : (r.data.replace k (.sec (setAt c ps m))).lookup k
                  = some (.sec (setAt c ps m)) := by
                rw [lookup_replace]
                simp [hl]
              simp only [setAt, hl, nodeAt, Node.data_mk]
              rw [hrep]
              exact nodeAt_setAt h

theorem nodeAt_append_path : ∀ {p : List String} {r n : Node} (q : List String),
    nodeAt r p = some n → nodeAt r (p ++ q) = nodeAt n q
  | [], r, n, q, h => by
      simp only [nodeAt, Option.some.injEq] at h
      rw [List.nil_append, h]
  | k :: ps, r, n, q, h => by
      cases hl : r.data.lookup k with
      | none => simp [nodeAt, hl] at h
      | some it =>
          cases it with
          | val v => simp [nodeAt, hl] at h
          | sec c =>
              simp only [nodeAt, hl] at h
              simp only [List.cons_append, nodeAt, hl]
              exact nodeAt_append_path q h

theorem setAt_setAt : ∀ {p : List String} {r n m m2 : Node},
    nodeAt r p = some n → setAt (setAt r p m) p m2 = setAt r p m2
  | [], _, _, _, _, _ => rfl
  | k :: ps, r, n, m, m2, h => by
      cases hl : r.data.lookup k with
      | none => simp [nodeAt, hl] at h
      | some it =>
          cases it with
          | val v => simp [nodeAt, hl] at h
          | sec c =>
              simp only [nodeAt, hl] at h
              have hrep : (r.data.replace k (.sec (setAt c ps m))).lookup k
                  = some (.sec (setAt c ps m)) := by
                rw [lookup_replace]
                simp [hl]
              simp only [setAt, hl, Node.data_mk, hrep, Node.order_mk,
                Node.sections_mk, Node.modifier_mk, Node.frozen_mk]
              rw [setAt_setAt h, replace_replace]

theorem setAt_append_path : ∀ {p : List String} {r n : Node} (q : List String) (m : Node),
    nodeAt r p = some n → setAt r (p ++ q) m = setAt r p (setAt n q m)
  | [], r, n, q, m, h => by
      simp only [nodeAt, Option.some.injEq] at h
      rw [List.nil_append, setAt, h]
  | k :: ps, r, n, q, m, h => by
      cases hl : r.data.lookup k with
      | none =>
          simp [nodeAt, hl] at h
      | some it =>
          cases it with
          | val v => simp [nodeAt, hl] at h
          | sec c =>
              simp only [nodeAt, hl] at h
              simp only [List.cons_append, setAt, hl]
              simp only [List.append_eq]
              rw [setAt_append_path q m h]

theorem setAt_self : ∀ {p : List String} {r n : Node},
    nodeAt r p = some n → setAt r p n = r
  | [], r, n, h => by
      simp only [nodeAt, Option.some.injEq] at h
      rw [setAt, h]
  | k :: ps, r, n, h => by
      cases r with
      | mk d o s mo f =>
      cases hl : d.lookup k with
      | none => simp [nodeAt, hl] at h
      | some it =>
          cases it with
          | val v => simp [nodeAt, hl] at h
          | sec c =>
              have hl2 : (Node.mk d o s mo f).data.lookup k = some (.sec c) := by
                simpa using hl
              simp only [nodeAt, hl2] at h
              simp only [setAt, Node.data_mk, hl, Node.order_mk,
                Node.sections_mk, Node.modifier_mk, Node.frozen_mk]
              rw [setAt_self h, replace_lookup_self hl]

/-! ## C1 development: one parsed line -/

theorem parseLine_value {st : PState} {p : List String} {base : List (Nat × List String)}
    {i : Nat} {k : String} {v : Val} {tgt : Node} {line : String}
    (hclass : classifyLine line = .ok (.dataLine i k (.valueAssign v.toText)))
    (hst : EntrySt i p base st) (hat : nodeAt st.root p = some tgt)
    (hconv : convertFromString v.toText = .ok v)
    (hkt : keyTransformStr k = .ok k)
    (hf : tgt.frozen = false) (hm : isRealModifier tgt.modifier = false)
    (hmeta : k ∉ metaKeys) (hkk : tgt.data.hasKey k = false) :
    parseLine st line = .ok ⟨setAt st.root p
        (.mk (tgt.data.snoc k (.val v)) (tgt.order ++ [.okey k]) tgt.sections
          tgt.modifier false),
      (i, p) :: base, none⟩ := by
  have hsv := set_value_scalar_eq (n := tgt) (y := .strKey k) (t := k) v
    (by simpa [keyTransform] using hkt) hf hm hmeta hkk
  simp only [parseLine, hclass, entry_updateIndent hst, hconv, applyAt, hat, hsv]

theorem parseLine_header {st : PState} {p : List String} {base : List (Nat × List String)}
    {i : Nat} {k : String} {enc : Option String} {tgt : Node} {line : String}
    (hclass : classifyLine line = .ok (.dataLine i k (.sectionOpen enc)))
    (hst : EntrySt i p base st) (hat : nodeAt st.root p = some tgt)
    (hkt : keyTransformStr k = .ok k)
    (hf : tgt.frozen = false) (hmeta : k ∉ metaKeys)
    (hsec : k ∉ tgt.sections) (hkk : tgt.data.hasKey k = false) :
    parseLine st line = .ok ⟨setAt st.root p
        (.mk (tgt.data.snoc k (.sec (emptyNode enc))) (tgt.order ++ [.okey k])
          (tgt.sections ++ [k]) tgt.modifier false),
      (i, p) :: base, some (p ++ [k])⟩ := by
  have hadd := add_section_eq (n := tgt) (y := .strKey k) (z := enc) (t := k)
    (by simpa [keyTransform] using hkt) hf hmeta hsec hkk
  simp only [parseLine, hclass, entry_updateIndent hst, applyAt, hat, hadd, hkt]

/-! ## C1 development: unpacking the round-trip invariant -/

theorem wfRT_destruct {n : Node} (h : wfRT n = true) :
    wfLocal n = true ∧ itemsAll wfLocal n.data = true := by
  cases n with
  | mk d o s m f =>
      rw [wfRT] at h
      simp only [nodeAll, Bool.and_eq_true] at h
      exact ⟨h.1, by simpa using h.2⟩

theorem lookup_mem_keys {d : Items} {k : String} {it : Item}
    (h : d.lookup k = some it) : k ∈ d.keys :=
  (hasKey_mem_keys d k).mp (by simp [Items.hasKey, h])

theorem wfLocal_spec {d : Items} {o : List OEnt} {s : List String}
    {m : Option String} {f : Bool} (h : wfLocal (.mk d o s m f) = true) :
    (∀ k ∈ d.keys, isIdentKey k = true ∧ k ∉ metaKeys) ∧
    d.keys.Nodup ∧
    liveKeys d o = d.keys ∧
    (∀ e ∈ o, isCommentEnt e = false) ∧
    (∀ k ∈ s, ∃ c, d.lookup k = some (.sec c)) ∧
    (∀ k c, d.lookup k = some (.sec c) → k ∈ s) ∧
    (∀ e, m = some e → identName e = true) ∧
    isRealModifier m = false ∧
    f = false ∧
    (∀ k v, d.lookup k = some (.val v) → stableVal v = true) := by
  unfold wfLocal at h
  simp only [Node.data_mk, Node.order_mk, Node.sections_mk, Node.modifier_mk,
    Node.frozen_mk, Bool.and_eq_true] at h
  obtain ⟨⟨⟨⟨⟨⟨⟨⟨h1, h2⟩, h3⟩, h4⟩, h5⟩, h6⟩, h7⟩, h8⟩, h9⟩ := h
  rw [List.all_eq_true] at h1 h4 h9
  refine ⟨?_, by simpa using h2, by simpa using h3, ?_, ?_, ?_, ?_, ?_, ?_, ?_⟩
  · intro k hk
    have := h1 k hk
    rw [Bool.and_eq_true, decide_eq_true_eq] at this
    exact this
  · intro e he
    have := h4 e he
    simpa using this
  · intro k hk
    rw [secLocal, Node.sections_mk, Node.data_mk, List.all_eq_true] at h5
    have := h5 k hk
    cases hl : d.lookup k with
    | none => rw [hl] at this; simp at this
    | some it =>
        cases it with
        | val v => rw [hl] at this; simp at this
        | sec c => exact ⟨c, rfl⟩
  · intro k c hc
    have hk : k ∈ d.keys := lookup_mem_keys hc
    rw [List.all_eq_true] at h6
    have := h6 k hk
    rw [hc] at this
    simpa using this
  · intro e he
    rw [he] at h7
    rw [Bool.and_eq_true] at h7
    exact h7.1
  · cases m with
    | none => rfl
    | some e =>
        rw [Bool.and_eq_true] at h7
        simpa using h7.2
  · simpa using h8
  · intro k v hv
    have hk : k ∈ d.keys := lookup_mem_keys hv
    have := h9 k hk
    rw [hv] at this
    exact this

theorem canon_build {d : Items} {o : List OEnt} {s : List String}
    {m : Option String} {f : Bool} (h : wfRT (.mk d o s m f) = true) :
    appendNode (emptyNode m) (canonItems (liveItems d o)) = canonNode (.mk d o s m f) := by
  obtain ⟨hl, -⟩ := wfRT_destruct h
  obtain ⟨-, hnd, hlive, -, -, -, -, -, hf, -⟩ := wfLocal_spec hl
  rw [liveItems_eq_self hlive hnd, hf]
  simp [appendNode, canonNode, emptyNode, catItems]

/-! ## C1 development: section keys of the data dict -/

theorem mem_secKeys_of_lookup : ∀ {d : Items} {k : String} {c : Node},
    d.lookup k = some (.sec c) → k ∈ secKeys d
  | .nil, k, c, h => by simp [Items.lookup] at h
  | .cons k0 (.val v) rest, k, c, h => by
      by_cases hk : k0 = k
      · subst hk; simp [Items.lookup] at h
      · simp only [Items.lookup, hk, if_false] at h
        rw [secKeys]
        exact mem_secKeys_of_lookup h
  | .cons k0 (.sec c0) rest, k, c, h => by
      by_cases hk : k0 = k
      · subst hk
        rw [secKeys]
        exact List.mem_cons_self _ _
      · simp only [Items.lookup, hk, if_false] at h
        rw [secKeys]
        exact List.mem_cons_of_mem _ (mem_secKeys_of_lookup h)

theorem lookup_sec_of_mem_secKeys : ∀ {d : Items} {k : String},
    d.keys.Nodup → k ∈ secKeys d → ∃ c, d.lookup k = some (.sec c)
  | .nil, k, _, h => by simp [secKeys] at h
  | .cons k0 (.val v) rest, k, hnd, h => by
      rw [secKeys] at h
      rw [Items.keys, List.nodup_cons] at hnd
      obtain ⟨c, hc⟩ := lookup_sec_of_mem_secKeys hnd.2 h
      have hk : ¬ k0 = k := by
        intro he
        subst he
        exact hnd.1 (lookup_mem_keys hc)
      exact ⟨c, by simp [Items.lookup, hk, hc]⟩
  | .cons k0 (.sec c0) rest, k, hnd, h => by
      rw [secKeys] at h
      rw [Items.keys, List.nodup_cons] at hnd
      rcases List.mem_cons.mp h with rfl | h
      · exact ⟨c0, by simp [Items.lookup]⟩
      · obtain ⟨c, hc⟩ := lookup_sec_of_mem_secKeys hnd.2 h
        have hk : ¬ k0 = k := by
          intro he
          subst he
          exact hnd.1 (lookup_mem_keys hc)
        exact ⟨c, by simp [Items.lookup, hk, hc]⟩

theorem secKeys_canon : ∀ d : Items, secKeys (canonItems d) = secKeys d
  | .nil => rfl
  | .cons k (.val v) rest => by
      simp only [canonItems, canonItem, secKeys, secKeys_canon rest]
  | .cons k (.sec n) rest => by
      simp only [canonItems, canonItem, secKeys, secKeys_canon rest]

/-! ## C1 development: the reparse is shape-equivalent -/

mutual

theorem shapeEq_canon_node : ∀ n : Node, wfRT n = true →
    shapeEqNode n (canonNode n) = true
  | .mk d o s m f, h => by
      obtain ⟨hl, hall⟩ := wfRT_destruct h
      obtain ⟨-, hnd, -, -, hsecl, hsecr, -, -, -, -⟩ := wfLocal_spec hl
      simp only [Node.data_mk] at hall
      simp only [canonNode, shapeEqNode, Bool.and_eq_true]
      refine ⟨⟨shapeEq_canon_items d hall, ?_⟩, ?_⟩
      · rw [List.all_eq_true]
        intro k hk
        obtain ⟨c, hc⟩ := hsecl k hk
        rw [secKeys_canon]
        exact decide_eq_true (mem_secKeys_of_lookup hc)
      · rw [List.all_eq_true]
        intro k hk
        rw [secKeys_canon] at hk
        obtain ⟨c, hc⟩ := lookup_sec_of_mem_secKeys hnd hk
        exact decide_eq_true (hsecr k c hc)

theorem shapeEq_canon_items : ∀ d : Items, itemsAll wfLocal d = true →
    shapeEqItems d (canonItems d) = true
  | .nil, _ => rfl
  | .cons k it rest, h => by
      rw [itemsAll, Bool.and_eq_true] at h
      simp only [canonItems, shapeEqItems, Bool.and_eq_true]
      exact ⟨⟨by simp, shapeEq_canon_item it h.1⟩, shapeEq_canon_items rest h.2⟩

theorem shapeEq_canon_item : ∀ it : Item, itemAll wfLocal it = true →
    shapeEqItem it (canonItem it) = true
  | .val v, _ => by simp [canonItem, shapeEqItem]
  | .sec n, h => by
      simp only [canonItem, shapeEqItem]
      exact shapeEq_canon_node n (by rw [itemAll] at h; exact h)

end

/-! ## C1 development: unfolding the writer -/

theorem dumpGo_nil (d : Items) (secs : List String) (lvl : Nat) :
    dumpGo d secs [] lvl = .ok [] := by
  simp [dumpGo]

theorem dumpGo_dead {d : Items} {k : String} (secs : List String) (os : List OEnt)
    (lvl : Nat) (hk : d.lookup k = none) :
    dumpGo d secs (.okey k :: os) lvl = dumpGo d secs os lvl := by
  rw [dumpGo.eq_def]
  split
  case h_1 heq => simp at heq
  case h_2 c2 os2 heq => simp at heq
  case h_3 k2 os2 heq =>
    injection heq with h1 h2
    injection h1 with h3
    subst h3
    subst h2
    split
    · rfl
    · rename_i it h
      rw [hk] at h
      simp at h

theorem dumpGo_val {d : Items} {secs : List String} {k : String} {v : Val}
    {os : List OEnt} {lvl : Nat} {rest : List String}
    (hk : d.lookup k = some (.val v)) (hns : k ∉ secs)
    (hrest : dumpGo d secs os lvl = .ok rest) :
    dumpGo d secs (.okey k :: os) lvl =
      .ok ((indentStr lvl ++ k ++ " = " ++ v.toText) :: rest) := by
  rw [dumpGo.eq_def]
  split
  case h_1 heq => simp at heq
  case h_2 c2 os2 heq => simp at heq
  case h_3 k2 os2 heq =>
    injection heq with h1 h2
    injection h1 with h3
    subst h3
    subst h2
    split
    · rename_i h
      rw [hk] at h
      simp at h
    · rename_i it h
      rw [hk] at h
      injection h with h2
      subst h2
      simp [hns, hrest]

theorem dumpGo_sec {d : Items} {secs : List String} {k : String} {c : Node}
    {os : List OEnt} {lvl : Nat} {body rest : List String}
    (hk : d.lookup k = some (.sec c)) (hs : k ∈ secs)
    (hbody : dumpGo c.data c.sections c.order (lvl + 1) = .ok body)
    (hrest : dumpGo d secs os lvl = .ok rest) :
    dumpGo d secs (.okey k :: os) lvl =
      .ok ((indentStr lvl ++ headerStr k c.modifier) :: (body ++ rest)) := by
  rw [dumpGo.eq_def]
  split
  case h_1 heq => simp at heq
  case h_2 c2 os2 heq => simp at heq
  case h_3 k2 os2 heq =>
    injection heq with h1 h2
    injection h1 with h3
    subst h3
    subst h2
    split
    · rename_i h
      rw [hk] at h
      simp at h
    · rename_i it h
      rw [hk] at h
      injection h with h2
      subst h2
      cases hm : c.modifier with
      | none => simp [hs, hbody, hrest, headerStr, hm]
      | some enc => simp [hs, hbody, hrest, headerStr, hm]

/-! ## C1 development: the main writer/parser simulation -/

/- Dumping the block of a node and feeding the lines back to the parser
appends exactly the canonicalized live entries to the node at path `p` of
the parser root, leaving the parser ready for the enclosing block. -/
theorem parse_dump_go (d : Items) (secs : List String) (os : List OEnt) (lvl : Nat)
    (p : List String) (base : List (Nat × List String)) (st : PState) (tgt : Node)
    (hkeys : ∀ k ∈ liveKeys d os, isIdentKey k = true ∧ k ∉ metaKeys)
    (hnd : (liveKeys d os).Nodup)
    (hcom : ∀ e ∈ os, isCommentEnt e = false)
    (hsec : ∀ k c, d.lookup k = some (.sec c) → k ∈ secs ∧ wfRT c = true)
    (hval : ∀ k v, d.lookup k = some (.val v) → k ∉ secs ∧ stableVal v = true)
    (hfresh : ∀ k ∈ liveKeys d os, tgt.data.hasKey k = false)
    (hts : ∀ k ∈ tgt.sections, tgt.data.hasKey k = true)
    (htf : tgt.frozen = false)
    (htm : isRealModifier tgt.modifier = false)
    (hst : EntrySt (lvl * 4) p base st)
    (hat : nodeAt st.root p = some tgt) :
    ∃ lines st2,
      dumpGo d secs os lvl = .ok lines ∧
      (∀ more, parseLines (lines ++ more) st = parseLines more st2) ∧
      EntrySt (lvl * 4) p base st2 ∧
      st2.root = setAt st.root p (appendNode tgt (canonItems (liveItems d os))) := by
  cases os with
  | nil =>
      refine ⟨[], st, dumpGo_nil d secs lvl, fun more => by rw [List.nil_append],
        hst, ?_⟩
      have happ : appendNode tgt (canonItems (liveItems d [])) = tgt := by
        cases tgt with
        | mk td tord ts tm tf =>
            simp [appendNode, liveItems, canonItems, catItems_nil, secKeys, Items.keys]
      rw [happ, setAt_self hat]
  | cons e os =>
    cases e with
    | ocomment c =>
        exact absurd (hcom _ (List.mem_cons_self _ _)) (by simp [isCommentEnt])
    | okey k =>
      cases hlook : d.lookup k with
      | none =>
          have hhk : d.hasKey k = false := by simp [Items.hasKey, hlook]
          have hlive : liveKeys d (.okey k :: os) = liveKeys d os := by
            rw [liveKeys, if_neg (by simp [hhk])]
          obtain ⟨lines, st2, hdump, hparse, hst2, hroot⟩ :=
            parse_dump_go d secs os lvl p base st tgt
              (fun k2 hk2 => hkeys k2 (by rw [hlive]; exact hk2))
              (by rw [hlive] at hnd; exact hnd)
              (fun e he => hcom e (List.mem_cons_of_mem _ he))
              hsec hval
              (fun k2 hk2 => hfresh k2 (by rw [hlive]; exact hk2))
              hts htf htm hst hat
          refine ⟨lines, st2, ?_, hparse, hst2, ?_⟩
          · rw [dumpGo_dead secs os lvl hlook, hdump]
          · rw [hroot]
            have hli : liveItems d (.okey k :: os) = liveItems d os := by
              rw [liveItems, hlook]
            rw [hli]
      | some it =>
        have hhk : d.hasKey k = true := by simp [Items.hasKey, hlook]
        have hlive : liveKeys d (.okey k :: os) = k :: liveKeys d os := by
          rw [liveKeys, if_pos (by simp [hhk])]
        have hkmem : k ∈ liveKeys d (.okey k :: os) := by
          rw [hlive]
          exact List.mem_cons_self _ _
        obtain ⟨hkident, hkmeta⟩ := hkeys k hkmem
        have hndk : k ∉ liveKeys d os ∧ (liveKeys d os).Nodup := by
          rw [hlive] at hnd
          exact List.nodup_cons.mp hnd
        have hfk : tgt.data.hasKey k = false := hfresh k hkmem
        have hkt : keyTransformStr k = .ok k := keyTransformStr_of_ident hkident
        have hkeys2 : ∀ k2 ∈ liveKeys d os, isIdentKey k2 = true ∧ k2 ∉ metaKeys :=
          fun k2 hk2 => hkeys k2 (by rw [hlive]; exact List.mem_cons_of_mem _ hk2)
        have hcom2 : ∀ e ∈ os, isCommentEnt e = false :=
          fun e he => hcom e (List.mem_cons_of_mem _ he)
        have hfresh0 : ∀ k2 ∈ liveKeys d os, tgt.data.hasKey k2 = false :=
          fun k2 hk2 => hfresh k2 (by rw [hlive]; exact List.mem_cons_of_mem _ hk2)
        cases it with
        | val v =>
            obtain ⟨hns, hstable⟩ := hval k v hlook
            have hclass := classify_value_line lvl hkident hstable
            have hline := parseLine_value hclass hst hat (stableVal_spec hstable).1
              hkt htf htm hkmeta hfk
            obtain ⟨lines, st2, hdump, hparse, hst2, hroot⟩ :=
              parse_dump_go d secs os lvl p base
                ⟨setAt st.root p (.mk (tgt.data.snoc k (.val v))
                    (tgt.order ++ [.okey k]) tgt.sections tgt.modifier false),
                  (lvl * 4, p) :: base, none⟩
                (.mk (tgt.data.snoc k (.val v)) (tgt.order ++ [.okey k])
                  tgt.sections tgt.modifier false)
                hkeys2 hndk.2 hcom2 hsec hval
                (fun k2 hk2 => by
                  have h1 := hfresh0 k2 hk2
                  have hne : ¬ (k = k2) := fun he => hndk.1 (he ▸ hk2)
                  simp [Items.hasKey, lookup_snoc,
                    lookup_none_of_hasKey_false h1, hne])
                (fun k2 hk2 => by
                  simp only [Node.sections_mk] at hk2
                  have h1 := hts k2 hk2
                  simp only [Node.data_mk, Items.hasKey] at h1 ⊢
                  rw [lookup_snoc]
                  cases hl2 : tgt.data.lookup k2 with
                  | none => rw [hl2] at h1; simp at h1
                  | some x => simp)
                (by simp) (by simpa using htm)
                (Or.inl ⟨[], rfl, by simp⟩)
                (nodeAt_setAt hat)
            refine ⟨(indentStr lvl ++ k ++ " = " ++ v.toText) :: lines, st2,
              dumpGo_val hlook hns hdump, ?_, hst2, ?_⟩
            · intro more
              rw [List.cons_append, parseLines_cons_ok hline, hparse more]
            · rw [hroot, setAt_setAt hat]
              have hli : liveItems d (.okey k :: os)
                  = .cons k (.val v) (liveItems d os) := by
                rw [liveItems, hlook]
              rw [hli]
              simp [appendNode, catItems_snoc, secKeys, Items.keys, htf,
                canonItems, canonItem, List.append_assoc]
        | sec child =>
          obtain ⟨hs, hwfc⟩ := hsec k child hlook
          cases child with
          | mk cd co cs cm cf =>
          obtain ⟨hlc, hallc⟩ := wfRT_destruct hwfc
          simp only [Node.data_mk] at hallc
          obtain ⟨hkc, hndc, hlivec, hcomc, hseclc, hsecrc, hidc, hmodc, hfc, hvalc⟩ :=
            wfLocal_spec hlc
          have hnsec : k ∉ tgt.sections := by
            intro hks
            have h1 := hts k hks
            rw [hfk] at h1
            exact absurd h1 (by simp)
          have hclass : classifyLine (indentStr lvl ++ headerStr k cm) =
              .ok (.dataLine (lvl * 4) k (.sectionOpen cm)) := by
            cases cm with
            | none => exact classify_header_line hkident
            | some enc => exact classify_header_enc_line hkident (hidc enc rfl)
          have hline := parseLine_header hclass hst hat hkt htf hkmeta hnsec hfk
          have hatP : nodeAt (setAt st.root p (.mk (tgt.data.snoc k (.sec (emptyNode cm)))
                (tgt.order ++ [.okey k]) (tgt.sections ++ [k]) tgt.modifier false)) p
              = some (.mk (tgt.data.snoc k (.sec (emptyNode cm)))
                (tgt.order ++ [.okey k]) (tgt.sections ++ [k]) tgt.modifier false) :=
            nodeAt_setAt hat
          have hlk1 : (tgt.data.snoc k (.sec (emptyNode cm))).lookup k
              = some (.sec (emptyNode cm)) := by
            rw [lookup_snoc, lookup_none_of_hasKey_false hfk]
            simp
          have hatC : nodeAt (setAt st.root p (.mk (tgt.data.snoc k (.sec (emptyNode cm)))
                (tgt.order ++ [.okey k]) (tgt.sections ++ [k]) tgt.modifier false))
              (p ++ [k]) = some (emptyNode cm) := by
            rw [nodeAt_append_path [k] hatP]
            simp [nodeAt, hlk1]
          obtain ⟨body, st2c, hdumpc, hparsec, hstc, hrootc⟩ :=
            parse_dump_go cd cs co (lvl + 1) (p ++ [k]) ((lvl * 4, p) :: base)
              ⟨setAt st.root p (.mk (tgt.data.snoc k (.sec (emptyNode cm)))
                  (tgt.order ++ [.okey k]) (tgt.sections ++ [k]) tgt.modifier false),
                (lvl * 4, p) :: base, some (p ++ [k])⟩
              (emptyNode cm)
              (fun k2 hk2 => hkc k2 (by rw [← hlivec]; exact hk2))
              (by rw [hlivec]; exact hndc)
              hcomc
              (fun k2 c2 hc2 => ⟨hsecrc k2 c2 hc2, itemsAll_lookup_sec hallc hc2⟩)
              (fun k2 v2 hv2 => ⟨fun hin => by
                  obtain ⟨c2, hc2⟩ := hseclc k2 hin
                  rw [hv2] at hc2
                  simp at hc2, hvalc k2 v2 hv2⟩)
              (fun k2 hk2 => by simp [emptyNode, Items.hasKey, Items.lookup])
              (fun k2 hk2 => by simp [emptyNode] at hk2)
              (by simp [emptyNode])
              (by simpa [emptyNode] using hmodc)
              (Or.inr ⟨rfl, rfl, lvl * 4, p, base, rfl, by omega⟩)
              hatC
          have hstpar : EntrySt (lvl * 4) p base st2c :=
            entry_child_to_parent hstc (by omega)
          have hsetT : setAt (Node.mk (tgt.data.snoc k (.sec (emptyNode cm)))
                (tgt.order ++ [.okey k]) (tgt.sections ++ [k]) tgt.modifier false) [k]
                (appendNode (emptyNode cm) (canonItems (liveItems cd co)))
              = Node.mk (tgt.data.snoc k
                  (.sec (appendNode (emptyNode cm) (canonItems (liveItems cd co)))))
                (tgt.order ++ [.okey k]) (tgt.sections ++ [k]) tgt.modifier false := by
            simp only [setAt, Node.data_mk, hlk1, Node.order_mk, Node.sections_mk,
              Node.modifier_mk, Node.frozen_mk]
            rw [replace_snoc_fresh _ _ hfk]
          have hroot2 : st2c.root = setAt st.root p
              (Node.mk (tgt.data.snoc k
                  (.sec (appendNode (emptyNode cm) (canonItems (liveItems cd co)))))
                (tgt.order ++ [.okey k]) (tgt.sections ++ [k]) tgt.modifier false) := by
            rw [hrootc]
            rw [setAt_append_path [k] _ hatP, hsetT, setAt_setAt hat]
          have hat2 : nodeAt st2c.root p = some
              (Node.mk (tgt.data.snoc k
                  (.sec (appendNode (emptyNode cm) (canonItems (liveItems cd co)))))
                (tgt.order ++ [.okey k]) (tgt.sections ++ [k]) tgt.modifier false) := by
            rw [hroot2]
            exact nodeAt_setAt hat
          obtain ⟨restl, st2, hdumpr, hparser, hst2, hrootr⟩ :=
            parse_dump_go d secs os lvl p base st2c
              (Node.mk (tgt.data.snoc k
                  (.sec (appendNode (emptyNode cm) (canonItems (liveItems cd co)))))
                (tgt.order ++ [.okey k]) (tgt.sections ++ [k]) tgt.modifier false)
              hkeys2 hndk.2 hcom2 hsec hval
              (fun k2 hk2 => by
                have h1 := hfresh0 k2 hk2
                have hne : ¬ (k = k2) := fun he => hndk.1 (he ▸ hk2)
                simp [Items.hasKey, lookup_snoc,
                  lookup_none_of_hasKey_false h1, hne])
              (fun k2 hk2 => by
                simp only [Node.sections_mk] at hk2
                simp only [Node.data_mk, Items.hasKey]
                rw [lookup_snoc]
                rcases List.mem_append.mp hk2 with hk2 | hk2
                · have h1 := hts k2 hk2
                  simp only [Items.hasKey] at h1
                  cases hl2 : tgt.data.lookup k2 with
                  | none => rw [hl2] at h1; simp at h1
                  | some x => simp
                · rw [List.mem_singleton.mp hk2]
                  rw [lookup_none_of_hasKey_false hfk]
                  simp)
              (by simp) (by simpa using htm)
              hstpar hat2
          refine ⟨(indentStr lvl ++ headerStr k cm) :: (body ++ restl), st2,
            ?_, ?_, hst2, ?_⟩
          · have hd := dumpGo_sec (c := Node.mk cd co cs cm cf) hlook hs
              (by simpa using hdumpc) hdumpr
            simpa using hd
          · intro more
            rw [List.cons_append, parseLines_cons_ok hline, List.append_assoc,
              hparsec (restl ++ more), hparser more]
          · rw [hrootr, hroot2, setAt_setAt hat]
            have hli : liveItems d (.okey k :: os)
                = .cons k (.sec (Node.mk cd co cs cm cf)) (liveItems d os) := by
              rw [liveItems, hlook]
            rw [hli]
            have hcanon : canonNode (Node.mk cd co cs cm cf)
                = appendNode (emptyNode cm) (canonItems (liveItems cd co)) :=
              (canon_build hwfc).symm
            simp [appendNode, catItems_snoc, secKeys, Items.keys, htf,
              canonItems, canonItem, List.append_assoc, hcanon]
termination_by (itemsSize d, os.length)
decreasing_by
  · exact Prod.Lex.right _ (by subst_vars; simp only [List.length_cons]; omega)
  · exact Prod.Lex.right _ (by subst_vars; simp only [List.length_cons]; omega)
  · exact Prod.Lex.left _ _ (by simpa using lookup_sec_size hlook)
  · exact Prod.Lex.right _ (by subst_vars; simp only [List.length_cons]; omega)

/-! ## C1: the round-trip claim -/

/-- C1 counterexample: a tree built by one public `set_value` call stores the
string `"123"`, but parsing its own dump re-infers the value as the integer
`123` — the stored values are not preserved by serialize-then-parse. -/
theorem C1_counterexample :
    set_value (emptyNode none) (.strKey "k") (.scalar (.vstr "123"))
      = (.mk (.cons "k" (.val (.vstr "123")) .nil) [.okey "k"] [] none false, none) ∧
    roundTrip (.mk (.cons "k" (.val (.vstr "123")) .nil) [.okey "k"] [] none false)
      = .ok (.mk (.cons "k" (.val (.vint 123)) .nil) [.okey "k"] [] none false) ∧
    Val.vstr "123" ≠ Val.vint 123 := by
  refine ⟨rfl, ?_, by decide⟩
  have hdump : dumpNode
      (Node.mk (.cons "k" (.val (.vstr "123")) .nil) [.okey "k"] [] none false) 0
      = .ok ["k = 123"] := by
    simp [dumpNode, dumpGo, Items.lookup]
    rfl
  unfold roundTrip
  simp only [hdump]
  rfl

/-- C1 (amended): for a tree whose every node has identifier-shaped non-meta
keys with no duplicates, a live `__order__` matching the data keys, no
comments, `__sections__` in sync with the section-valued entries, an inert
(or no) modifier, no frozen node and re-inference-stable scalar values — and
no modifier on the root — serialize-then-parse succeeds and returns exactly
the canonicalized tree: same keys in order, same stored values, same section
structure at every level. -/
theorem C1_roundtrip_amended {t : Node} (hwf : wfRT t = true)
    (hm : t.modifier = none) :
    roundTrip t = .ok (canonNode t) ∧ shapeEqNode t (canonNode t) = true := by
  refine ⟨?_, shapeEq_canon_node t hwf⟩
  cases t with
  | mk d o s m f =>
  simp only [Node.modifier_mk] at hm
  subst hm
  obtain ⟨hl, hall⟩ := wfRT_destruct hwf
  simp only [Node.data_mk] at hall
  obtain ⟨hk, hnd, hlive, hcom, hsecl, hsecr, -, -, -, hval⟩ := wfLocal_spec hl
  obtain ⟨lines, st2, hdump, hparse, -, hroot⟩ :=
    parse_dump_go d s o 0 [] [] (initState (emptyNode none)) (emptyNode none)
      (fun k2 hk2 => hk k2 (by rw [← hlive]; exact hk2))
      (by rw [hlive]; exact hnd)
      hcom
      (fun k2 c2 hc2 => ⟨hsecr k2 c2 hc2, itemsAll_lookup_sec hall hc2⟩)
      (fun k2 v2 hv2 => ⟨fun hin => by
          obtain ⟨c2, hc2⟩ := hsecl k2 hin
          rw [hv2] at hc2
          simp at hc2, hval k2 v2 hv2⟩)
      (fun k2 _ => by simp [emptyNode, Items.hasKey, Items.lookup])
      (fun k2 hk2 => by simp [emptyNode] at hk2)
      (by simp [emptyNode])
      (by simp [emptyNode, isRealModifier])
      (Or.inl ⟨[], rfl, by simp⟩)
      rfl
  unfold roundTrip dumpNode
  simp only [Node.data_mk, Node.sections_mk, Node.order_mk, hdump]
  have hp := hparse []
  rw [List.append_nil] at hp
  simp only [hp, parseLines]
  rw [hroot]
  rw [show setAt (initState (emptyNode none)).root []
      (appendNode (emptyNode none) (canonItems (liveItems d o)))
      = appendNode (emptyNode none) (canonItems (liveItems d o)) from rfl]
  rw [canon_build hwf]

/-- Witness for C1: `c1Tree` satisfies the amended hypotheses, and its
round trip returns its canonical form, shape-equal to the original. -/
theorem C1_roundtrip_witness :
    wfRT c1Tree = true ∧ c1Tree.modifier = none ∧
      (roundTrip c1Tree = .ok (canonNode c1Tree) ∧
        shapeEqNode c1Tree (canonNode c1Tree) = true) :=
  ⟨by decide, rfl, C1_roundtrip_amended (by decide) rfl⟩

end SimpleConfig
